import Mathlib

/-!
ImageConverter: the CPI run-length codec (Block.cpp, rle_format.cpp)

A shallow embedding of `imaging::Block`, the static `compress` helper,
`RLEImageWriter::write` and `RLEImageReader::read`, followed by the
properties established about them.

Conventions of the embedding.
* A `Component` is an unsigned 8-bit sample; samples and bytes are `Nat`s,
  and a narrowing store into a `Component` is written `% 256`.
* `unsigned int` arithmetic is written `% 2 ^ 32`, `unsigned short` stores
  `% 2 ^ 16`.
* Reading outside an array, dereferencing a null pointer, reading an
  indeterminate scalar and signed overflow are undefined behaviour; the
  embedding reports them as `fault`/`none` instead of inventing a value.
* Storage obtained from `new T[n]` is not initialised by the program; its
  prior content is an explicit parameter (`Fresh`, `init`).
* `float` is IEEE binary32 with round-to-nearest-even, evaluated in single
  precision; the one `float` expression of the program is computed exactly
  on integers (`toFloat`, `divFloat`, `ceilFloat`).
-/

namespace imaging

/-! ## Block -/

/-- Content of storage that the program allocates and does not initialise:
`Block::Block(const size_t&)` leaves the samples and `error_margin`
indeterminate. -/
structure Fresh where
  sample : Nat → Nat
  margin : Nat

/-- The class `Block`: `data` is the owned buffer, whose length is the field
`size` (the constructors and `operator=` always allocate exactly `size`
cells), and `error_margin` the tolerance of `operator==`. -/
structure Block where
  data : List Nat
  error_margin : Nat
deriving DecidableEq, Repr

/-- The accessor `Block::getSize`. -/
def Block.getSize (b : Block) : Nat := b.data.length

/-- The constructor `Block::Block(const size_t & block_size)`: allocates
`block_size` cells and initialises nothing. -/
def Block.create (u : Fresh) (block_size : Nat) : Block :=
  ⟨(List.range block_size).map u.sample, u.margin⟩

/-- The method `Block::setErrorMargin`. -/
def Block.setErrorMargin (b : Block) (err : Nat) : Block :=
  { b with error_margin := err % 256 }

/-- The unchecked `Block::operator[]`: `none` is an access outside the buffer. -/
def Block.index (b : Block) (index : Nat) : Option Nat := b.data[index]?

/-- The local `index2` of `Block::operator()`, in `size_t` arithmetic:
`size - 1` wraps around for an empty block. -/
def Block.checkedIndex (b : Block) (index : Nat) : Nat :=
  if index ≥ b.getSize then (if b.getSize = 0 then 2 ^ 64 - 1 else b.getSize - 1)
  else index

/-- The checked `Block::operator()`: `data[index2]`; `none` is an access
outside the buffer. -/
def Block.callOp (b : Block) (index : Nat) : Option Nat := b.data[b.checkedIndex index]?

/-- Three-way outcome of a call returning a pointer: undefined behaviour
during the call, a returned `nullptr`, or a returned object. -/
inductive Ret (α : Type) where
  | fault : Ret α
  | null : Ret α
  | val : α → Ret α
deriving DecidableEq, Repr

/-- The external class `Image`, as far as the codec uses it: `getWidth()`,
`getHeight()` and the planar buffer behind `getRawDataPtr()`. -/
structure Image where
  width : Nat
  height : Nat
  raw : List Nat
deriving DecidableEq, Repr

/-- The call `copy(src, src + size, data)` of `Block::setData`, reading
`size` cells of `mem` from offset `off`; `none` when a cell read lies
outside `mem`. -/
def readCells (mem : List Nat) (off : Nat) : Nat → Option (List Nat)
  | 0 => some []
  | n + 1 =>
    match mem[off]?, readCells mem (off + 1) n with
    | some v, some rest => some (v :: rest)
    | _, _ => none

/-- The static `Block::copyFromImage(src, channel, pos, size)`; `pos` is
`(x, y)` with non-negative coordinates and `channel` is the enumerator's
value (RED 0, GREEN 1, BLUE 2). The three offsets are `unsigned int`. -/
def Block.copyFromImage (u : Fresh) (src : Image) (channel : Nat) (pos : Nat × Nat)
    (size : Nat) : Ret Block :=
  let chanel_size := (src.width * src.height) % 2 ^ 32
  let chanel_offset := (channel * chanel_size) % 2 ^ 32
  let pos_offset := (pos.2 * src.width + pos.1) % 2 ^ 32
  if size = 0 ∨ pos.2 ≥ src.height ∨ pos.1 ≥ src.width then Ret.null
  else
    match readCells src.raw (chanel_offset + pos_offset) size with
    | none => Ret.fault
    | some d => Ret.val ⟨d, (Block.create u size).error_margin⟩

/-- The loop of `Block::reverse`: `k` iterations remain, `i` is the loop
variable, `result` the buffer of the new block. Each step performs
`result.data[i] = data[size-i]`. -/
def reverseLoop (data : List Nat) (size : Nat) : Nat → Nat → List Nat → Option (List Nat)
  | 0, _, result => some result
  | k + 1, i, result =>
    match data[size - i]? with
    | none => none
    | some v => reverseLoop data size k (i + 1) (result.set i v)

/-- The method `Block::reverse`: a fresh block of the same size, then the
loop `for (i = 0; i < size/2; ++i)`. `none` is an out-of-bounds read. -/
def Block.reverse (u : Fresh) (b : Block) : Option Block :=
  let result := Block.create u b.getSize
  (reverseLoop b.data b.getSize (b.getSize / 2) 0 result.data).map
    (fun d => { result with data := d })

/-- First loop of `Block::operator==` (taken when `error_margin == 0`):
leave with `false` at the first index where the samples differ. -/
def eqLoopExact : List Nat → List Nat → Bool
  | x :: xs, y :: ys => if x ≠ y then false else eqLoopExact xs ys
  | _, _ => true

/-- Second loop of `Block::operator==` (taken when `error_margin != 0`):
leave with `false` at the first index where
`abs((int) data[i] - (int) rhs.data[i]) <= error_margin`. -/
def eqLoopMargin (error_margin : Nat) : List Nat → List Nat → Bool
  | x :: xs, y :: ys =>
    if Int.natAbs ((x : Int) - (y : Int)) ≤ error_margin then false
    else eqLoopMargin error_margin xs ys
  | _, _ => true

/-- The operator `Block::operator==`. -/
def Block.beq (a rhs : Block) : Bool :=
  if a.getSize ≠ rhs.getSize then false
  else if a.error_margin = 0 then eqLoopExact a.data rhs.data
  else eqLoopMargin a.error_margin a.data rhs.data

/-- The operator `Block::operator!=`. -/
def Block.bne (a rhs : Block) : Bool := !(Block.beq a rhs)

/-! ## compress -/

/-- The `for` loop of `compress` over the block's iterator, which visits
`data[0], data[1], …` in order: `current` and `count` are the locals of the
same name, `result` the vector built so far. After the loop the pending run
is pushed. `count` is an `int`; `push_back(count)` narrows it to a
`Component`. The blocks `write` hands to `compress` have fewer than `2 ^ 31`
samples (their size comes from an `unsigned short` or an `int`), so the
`int` counters themselves do not overflow. -/
def compressLoop (err : Nat) : List Nat → Nat → Nat → List Nat → List Nat
  | [], current, count, result => result ++ [current, count % 256]
  | c :: rest, current, count, result =>
    if Int.natAbs ((c : Int) - (current : Int)) ≤ err then
      compressLoop err rest current (count + 1) result
    else
      compressLoop err rest c 1 (result ++ [current, count % 256])

/-- The static function `compress(bl, err)` for a non-null `bl`. `none`:
`*(bl->begin())` reads `data[0]` of an empty block. -/
def compress (bl : Block) (err : Nat) : Option (List Nat) :=
  match bl.index 0 with
  | none => none
  | some current => some (compressLoop err bl.data current 0 [])

/-! ## The decode loop of RLEImageReader::read -/

/-- The inner `while ((decodedCharLength < charCount) && (j < size))` of the
decode loop; `remaining` is `charCount - decodedCharLength`. Returns the new
`j` and buffer. -/
def decodeRun (value size : Nat) : Nat → Nat → List Nat → Nat × List Nat
  | 0, j, decoded => (j, decoded)
  | remaining + 1, j, decoded =>
    if j < size then decodeRun value size remaining (j + 1) (decoded.set j value)
    else (j, decoded)

/-- The outer `for (unsigned int i = 1; i < dataSize; i += 2)` of the decode
loop, with `dataSize` the length of `imageChar`; `fuel` bounds the number of
iterations. -/
def decodeLoop (imageChar : List Nat) (size : Nat) :
    Nat → Nat → Nat → List Nat → Nat × List Nat
  | 0, _, j, decoded => (j, decoded)
  | fuel + 1, i, j, decoded =>
    if i < imageChar.length then
      let r := decodeRun (imageChar.getD (i - 1) 0) size (imageChar.getD i 0) j decoded
      decodeLoop imageChar size fuel (i + 2) r.1 r.2
    else (j, decoded)

/-- The decode loop run from its initial state (`i = 1`, `j = 0`) on the
payload `imageChar` with target length `size`; `decoded` is the content of
the freshly allocated output buffer. The loop body runs at most
`dataSize / 2` times, so `dataSize` iterations of fuel always suffice. -/
def decode (imageChar : List Nat) (size : Nat) (decoded : List Nat) : List Nat :=
  (decodeLoop imageChar size imageChar.length 1 0 decoded).2

/-! ## RLEImageWriter -/

/-- The configuration fields of `RLEImageWriter`: `block_length` is an
`unsigned short`, `threshold` a `Component`. -/
structure RLEImageWriter where
  block_length : Nat
  threshold : Nat
deriving DecidableEq, Repr

/-- The constructor of `RLEImageWriter`: `block_length(32), threshold(0)`. -/
def RLEImageWriter.create : RLEImageWriter := ⟨32, 0⟩

/-- The method `setBlockDimension(unsigned int dim)`:
`block_length = dim>2 ? dim : 2`, stored into an `unsigned short`. -/
def RLEImageWriter.setBlockDimension (wr : RLEImageWriter) (dim : Nat) : RLEImageWriter :=
  { wr with block_length := (if dim > 2 then dim else 2) % 2 ^ 16 }

/-- The method `setThreshold(Component value)`. -/
def RLEImageWriter.setThreshold (wr : RLEImageWriter) (value : Nat) : RLEImageWriter :=
  { wr with threshold := value % 256 }

/-- The two bytes `write((char*) &x, 2)` emits for an `unsigned short` on a
little-endian platform. -/
def shortBytes (x : Nat) : List Nat := [x % 256, (x / 256) % 256]

/-- The header `RLEImageWriter::write` emits: `'C'`, `'P'`, `'I'`, `v`, then
`e`, `w`, `h`, `b` as `unsigned short`s. -/
def writeHeader (wr : RLEImageWriter) (src : Image) : List Nat :=
  [67, 80, 73, 2] ++ shortBytes 258 ++ shortBytes (src.width % 2 ^ 16)
    ++ shortBytes (src.height % 2 ^ 16) ++ shortBytes wr.block_length

/-- Round to nearest, ties to even, of the quotient `num / den` to an
integer (`den > 0`): the rounding mode of IEEE arithmetic. -/
def roundHalfEven (num den : Nat) : Nat :=
  let q := num / den
  let r := num % den
  if 2 * r < den then q
  else if den < 2 * r then q + 1
  else if q % 2 = 0 then q
  else q + 1

/-- The number of low-order bits of `n` that a 24-bit `float` significand
cannot hold: the least `e` with `n / 2 ^ e < 2 ^ 24`. `fuel` bounds the
search (`n` itself suffices). -/
def excessBits : Nat → Nat → Nat
  | 0, _ => 0
  | fuel + 1, n => if n < 2 ^ 24 then 0 else excessBits fuel (n / 2) + 1

/-- The conversion of a non-negative integer to `float` (IEEE binary32):
the nearest value with 24 significant bits, an integer again. -/
def toFloat (n : Nat) : Nat :=
  let e := excessBits n n
  roundHalfEven n (2 ^ e) * 2 ^ e

/-- The `float` quotient `a / b` of two integer-valued floats, given as the
numerator of a fraction over `2 ^ 40`: the real quotient rounded to 24
significant bits. The scale `2 ^ 40` is exact for every quotient that is 0
or at least `2 ^ (-16)`, which covers a divisor that came from an
`unsigned short`. -/
def divFloat (a b : Nat) : Nat :=
  let e := excessBits (a * 2 ^ 40 / b) (a * 2 ^ 40 / b)
  roundHalfEven (a * 2 ^ 40) (b * 2 ^ e) * 2 ^ e

/-- The value of `ceil` on a `float` given as a numerator over `2 ^ 40`. -/
def ceilFloat (v : Nat) : Nat := (v + 2 ^ 40 - 1) / 2 ^ 40

/-- The value `(int) ceil(src.getWidth() / (float) block_length)`, the
division being carried out in `float` (IEEE binary32, evaluated in single
precision). A zero `block_length` divides by zero and converts an infinity
or NaN to `int` (`none`), and so does a result that does not fit an `int`.
`nBlocks_exact` shows that the value is the exact ceiling of the quotient
for widths below `2 ^ 24`. -/
def nBlocks (width block_length : Nat) : Option Nat :=
  if block_length = 0 then none
  else
    let n := ceilFloat (divFloat (toFloat width) (toFloat block_length))
    if n < 2 ^ 31 then some n else none

/-- The value `src.getWidth() - (n_blocks-1) * block_length`, an `int`. -/
def bLast (width n_blocks block_length : Nat) : Int :=
  (width : Int) - ((n_blocks : Int) - 1) * (block_length : Int)

/-- The conversion of an `int` argument to `const size_t &` (64-bit). -/
def toSizeT (x : Int) : Nat := (x % 2 ^ 64).toNat

/-- One extraction followed by `compress(b, threshold)`, whose output is
written to the file. `write` does not test the pointer: a null `b` is
dereferenced by `compress` (`none`). -/
def writeBlock (u : Fresh) (src : Image) (chanel : Nat) (pos : Nat × Nat) (len : Nat)
    (threshold : Nat) : Option (List Nat) :=
  match Block.copyFromImage u src chanel pos len with
  | Ret.val b => compress b threshold
  | _ => none

/-- The loop `for (int i = 1; i < n_blocks; ++i)` of `write` with `k`
iterations remaining and `pos = (x, y)`: returns the bytes written and the
final `pos.x`. -/
def writeFullBlocks (u : Fresh) (src : Image) (chanel y block_length threshold : Nat) :
    Nat → Nat → Option (List Nat × Nat)
  | 0, x => some ([], x)
  | k + 1, x =>
    match writeBlock u src chanel (x, y) block_length threshold,
        writeFullBlocks u src chanel y block_length threshold k (x + block_length) with
    | some bytes, some (rest, x1) => some (bytes ++ rest, x1)
    | _, _ => none

/-- One iteration of `while (cmp.y)`: the full blocks of row `y`, then the
block of length `b_last`. -/
def writeRow (u : Fresh) (src : Image) (chanel y block_length threshold n_blocks : Nat)
    (b_last : Int) : Option (List Nat) :=
  match writeFullBlocks u src chanel y block_length threshold (n_blocks - 1) 0 with
  | none => none
  | some (bytes, x) =>
    match writeBlock u src chanel (x, y) (toSizeT b_last) threshold with
    | none => none
    | some last => some (bytes ++ last)

/-- The extraction requests `(pos.x, size)` issued by the loop
`for (int i = 1; i < n_blocks; ++i)` with `k` iterations remaining, and the
final `pos.x`. -/
def fullBlockRequests (block_length : Nat) : Nat → Nat → List (Nat × Nat) × Nat
  | 0, x => ([], x)
  | k + 1, x =>
    ((x, block_length) :: (fullBlockRequests block_length k (x + block_length)).1,
      (fullBlockRequests block_length k (x + block_length)).2)

/-- The extraction requests `(pos.x, size)` that one iteration of
`while (cmp.y)` passes to `Block::copyFromImage`, in order. -/
def rowRequests (block_length n_blocks : Nat) (b_last : Int) : List (Nat × Nat) :=
  (fullBlockRequests block_length (n_blocks - 1) 0).1
    ++ [((fullBlockRequests block_length (n_blocks - 1) 0).2, toSizeT b_last)]

/-- The bytes written for a list of requests in row `y`: `writeBlock` on
each, in order. -/
def writeRequests (u : Fresh) (src : Image) (chanel y threshold : Nat) :
    List (Nat × Nat) → Option (List Nat)
  | [] => some []
  | r :: rs =>
    match writeBlock u src chanel (r.1, y) r.2 threshold,
        writeRequests u src chanel y threshold rs with
    | some bytes, some rest => some (bytes ++ rest)
    | _, _ => none

/-- The loop `while (cmp.y)` of `write`, `cmp.y` being `pos.y < size.y`;
`fuel` bounds the number of iterations (the height suffices). -/
def writeRows (u : Fresh) (src : Image) (chanel block_length threshold n_blocks : Nat)
    (b_last : Int) : Nat → Nat → Option (List Nat)
  | 0, _ => some []
  | fuel + 1, y =>
    if y < src.height then
      match writeRow u src chanel y block_length threshold n_blocks b_last,
          writeRows u src chanel block_length threshold n_blocks b_last fuel (y + 1) with
      | some row, some rest => some (row ++ rest)
      | _, _ => none
    else some []

/-- The method `RLEImageWriter::write` for a file that could be opened: the
bytes of the file, or `none` when the call runs into undefined behaviour.
The channel loop visits RED, GREEN, BLUE. -/
def RLEImageWriter.write (wr : RLEImageWriter) (u : Fresh) (src : Image) : Option (List Nat) :=
  match nBlocks src.width wr.block_length with
  | none => none
  | some n_blocks =>
    let b_last := bLast src.width n_blocks wr.block_length
    let chan := fun c =>
      writeRows u src c wr.block_length wr.threshold n_blocks b_last src.height 0
    match chan 0, chan 1, chan 2 with
    | some r, some g, some b => some (writeHeader wr src ++ r ++ g ++ b)
    | _, _, _ => none

/-! ## RLEImageReader -/

/-- The value of an `unsigned short` read from two bytes by
`readUnsignedShortBinary` on a little-endian platform. -/
def readShort (file : List Nat) (off : Nat) : Nat :=
  file.getD off 0 + 256 * file.getD (off + 1) 0

/-- The method `RLEImageReader::read` on a file that could be opened, `file`
being its bytes and `init` the prior content of the buffer
`decodedImageChar`.
* Fewer than 6 bytes: `endian` is read from a buffer the stream did not
  fill (`fault`); likewise `w`, `h`, `maxBlockSize` below 12 bytes.
* `w * h * 3` is computed in `int`: `fault` from `2 ^ 31` on.
* `dataSize` is an `unsigned int`. -/
def RLEImageReader.read (init : Nat → Nat) (file : List Nat) : Ret Image :=
  if file.length < 6 then Ret.fault
  else if ¬ (file.getD 0 0 = 67 ∧ file.getD 1 0 = 80 ∧ file.getD 2 0 = 73
      ∧ file.getD 3 0 = 2 ∧ readShort file 4 = 258) then Ret.null
  else if file.length < 12 then Ret.fault
  else
    let w := readShort file 6
    let h := readShort file 8
    if w * h * 3 ≥ 2 ^ 31 then Ret.fault
    else
      let size := w * h * 3
      let dataSize := (file.length - 12) % 2 ^ 32
      let imageChar := (file.drop 12).take dataSize
      Ret.val ⟨w, h, decode imageChar size ((List.range size).map init)⟩

/-! ## Specification-side notions -/

/-- The expansion the decoder is specified to produce: over the complete
byte pairs `(value, count)` of the payload, in order, `count` copies of
`value`; a trailing unpaired byte contributes nothing. -/
def expandPairs : List Nat → List Nat
  | value :: count :: rest => List.replicate count value ++ expandPairs rest
  | _ => []

/-- Sum of the count bytes (the bytes at odd positions) of a payload. -/
def runLengthSum : List Nat → Nat
  | _ :: count :: rest => count + runLengthSum rest
  | _ => 0

/-- The decode loop restated over the list of byte pairs instead of the
index `i`; `decodeLoop_eq_decodePairs` shows that it computes what
`decodeLoop` computes. -/
def decodePairs (size : Nat) : List Nat → Nat → List Nat → Nat × List Nat
  | value :: count :: rest, j, decoded =>
    let r := decodeRun value size count j decoded
    decodePairs size rest r.1 r.2
  | _, j, decoded => (j, decoded)

/-- State `(j, decodedImageChar)` of the decode loop once the runs
consumed so far expand to `done`: the buffer `init` holds the first
`min done.length size` samples of `done` and is otherwise untouched. -/
def decodedState (size : Nat) (init done : List Nat) : Nat × List Nat :=
  (min done.length size, done.take size ++ init.drop (min done.length size))

/-- The bytes of a sequence of `(value, count)` pairs, value first. -/
def pairBytes : List (Nat × Nat) → List Nat
  | [] => []
  | p :: ps => p.1 :: p.2 :: pairBytes ps

/-- A row of 256 samples 0 followed by one sample 1. -/
def longRow : List Nat := List.replicate 256 0 ++ [1]

/-- The image of width 257 and height 1 whose three channels are `longRow`. -/
def longImage : Image := ⟨257, 1, longRow ++ (longRow ++ longRow)⟩

/-- Signed distance test `|c - current| <= err` on widened samples. -/
def within (err c current : Nat) : Prop := Int.natAbs ((c : Int) - (current : Int)) ≤ err

instance (err c current : Nat) : Decidable (within err c current) := by
  unfold within; infer_instance

/-- Index of the first sample covered by run `j` of `ps`: the sum of the
counts of the runs before it. -/
def runStart (ps : List (Nat × Nat)) (j : Nat) : Nat := ((ps.take j).map Prod.snd).sum

/-- The runs `ps`, in order, cover `data` exactly: each run `(v, c)` has
`c ≥ 1`, starts at a sample equal to `v`, and every sample it covers is
within `err` of `v`. -/
def runsCover (err : Nat) : List (Nat × Nat) → List Nat → Prop
  | [], data => data = []
  | p :: ps, data =>
    1 ≤ p.2 ∧ p.2 ≤ data.length ∧ data[0]? = some p.1
      ∧ (∀ s ∈ data.take p.2, within err s p.1) ∧ runsCover err ps (data.drop p.2)

/-- The blocks of one row as the specification lists them, left to right:
`n_blocks - 1` blocks of length `block_length`, block `k` at
`x = k * block_length`, then the last block, of length `b_last`. -/
def rowBlocks (block_length n_blocks : Nat) (b_last : Int) : List (Nat × Nat) :=
  (List.range (n_blocks - 1)).map (fun k => (k * block_length, block_length))
    ++ [((n_blocks - 1) * block_length, toSizeT b_last)]

/-- The specification's `compress` of one block on its own: the block of
channel `c` extracted at `(x, y)` with `len` samples, `r` being `(x, len)`;
`none` when there is no such block or `compress` cannot run on it. -/
def compressBlockAt (u : Fresh) (src : Image) (threshold c y : Nat) (r : Nat × Nat) :
    Option (List Nat) :=
  match Block.copyFromImage u src c (r.1, y) r.2 with
  | Ret.val b => compress b threshold
  | _ => none

/-- Concatenation, in order, of byte strings all of which must exist. -/
def concatAll : List (Option (List Nat)) → Option (List Nat)
  | [] => some []
  | none :: _ => none
  | some bytes :: os => (concatAll os).map (fun rest => bytes ++ rest)

/-- The payload as the specification describes it: over the channels RED,
GREEN, BLUE, the rows top to bottom and the blocks of a row left to right,
the output of `compress` on each block separately, concatenated with no
marker in between. -/
def payloadByBlocks (u : Fresh) (src : Image) (block_length threshold n_blocks : Nat)
    (b_last : Int) : Option (List Nat) :=
  concatAll ((List.range 3).flatMap fun c =>
    (List.range src.height).flatMap fun y =>
      (rowBlocks block_length n_blocks b_last).map fun r =>
        compressBlockAt u src threshold c y r)

end imaging

open imaging

/-! ## compress: a block that stays within tolerance of its first sample -/

theorem compressLoop_within (err current : Nat) (xs : List Nat) (count : Nat) (result : List Nat)
    (h : ∀ c ∈ xs, within err c current) :
    compressLoop err xs current count result
      = result ++ [current, (count + xs.length) % 256] := by
  induction xs generalizing count with
  | nil => simp [compressLoop]
  | cons c rest ih =>
    have hc : Int.natAbs ((c : Int) - (current : Int)) ≤ err := h c (by simp)
    have hrest : ∀ d ∈ rest, within err d current := fun d hd => h d (by simp [hd])
    simp only [compressLoop, hc, if_true, List.length_cons]
    rw [ih (count + 1) hrest]
    congr 3
    omega

theorem compress_within (bl : Block) (err v : Nat) (h0 : bl.index 0 = some v)
    (h : ∀ c ∈ bl.data, within err c v) :
    compress bl err = some [v, bl.getSize % 256] := by
  unfold compress
  rw [h0]
  simp only [compressLoop_within err v bl.data 0 [] h, Block.getSize]
  simp

/-- C5. A block of length `L` with `1 ≤ L ≤ 255` whose every sample is within
`err` of its first sample `v` compresses to exactly one run, the two bytes
`v, L`. -/
theorem compress_single_run (bl : Block) (err v : Nat) (h0 : bl.index 0 = some v)
    (h1 : 1 ≤ bl.getSize) (h255 : bl.getSize ≤ 255)
    (h : ∀ c ∈ bl.data, within err c v) :
    compress bl err = some [v, bl.getSize] := by
  rw [compress_within bl err v h0 h, Nat.mod_eq_of_lt (by omega)]

/-- C5, witness: the block `[5, 6, 7]` at tolerance 2 yields the run `(5, 3)`. -/
theorem compress_single_run_witness :
    Block.index ⟨[5, 6, 7], 0⟩ 0 = some 5
      ∧ 1 ≤ Block.getSize ⟨[5, 6, 7], 0⟩
      ∧ Block.getSize ⟨[5, 6, 7], 0⟩ ≤ 255
      ∧ (∀ c ∈ (Block.mk [5, 6, 7] 0).data, within 2 c 5)
      ∧ compress ⟨[5, 6, 7], 0⟩ 2 = some [5, 3] :=
  ⟨by decide, by decide, by decide, by decide,
    compress_single_run ⟨[5, 6, 7], 0⟩ 2 5 (by decide) (by decide) (by decide) (by decide)⟩

/-! ## The decode loop -/

theorem decodeLoop_eq_decodePairs (size fuel : Nat) (pre rest : List Nat) (j : Nat)
    (decoded : List Nat) (hfuel : rest.length ≤ fuel) :
    decodeLoop (pre ++ rest) size fuel (pre.length + 1) j decoded
      = decodePairs size rest j decoded := by
  induction fuel generalizing pre rest j decoded with
  | zero =>
    have : rest = [] := List.eq_nil_of_length_eq_zero (by omega)
    subst this
    simp [decodeLoop, decodePairs]
  | succ fuel ih =>
    match rest, hfuel with
    | [], _ => simp [decodeLoop, decodePairs]
    | [x], _ => simp [decodeLoop, decodePairs]
    | value :: count :: rest1, hfuel =>
      have hlt : pre.length + 1 < (pre ++ value :: count :: rest1).length := by
        simp
      have hv : (pre ++ value :: count :: rest1).getD (pre.length + 1 - 1) 0 = value := by
        rw [List.getD_eq_getElem?_getD, Nat.add_sub_cancel,
          List.getElem?_append_right (le_refl _)]
        simp
      have hc : (pre ++ value :: count :: rest1).getD (pre.length + 1) 0 = count := by
        rw [List.getD_eq_getElem?_getD, List.getElem?_append_right (Nat.le_succ _)]
        simp
      have hsplit : pre ++ value :: count :: rest1 = (pre ++ [value, count]) ++ rest1 := by
        simp
      have hidx : pre.length + 1 + 2 = (pre ++ [value, count]).length + 1 := by
        simp
      rw [decodeLoop, if_pos hlt, hv, hc, decodePairs]
      simp only []
      rw [hsplit, hidx]
      exact ih (pre ++ [value, count]) rest1 _ _ (by simp at hfuel; omega)

theorem decode_eq_decodePairs (imageChar : List Nat) (size : Nat) (decoded : List Nat) :
    decode imageChar size decoded = (decodePairs size imageChar 0 decoded).2 := by
  have h := decodeLoop_eq_decodePairs size imageChar.length [] imageChar 0 decoded (le_refl _)
  simp only [List.nil_append, List.length_nil, Nat.zero_add] at h
  simp [decode, h]

theorem decodedState_step (size : Nat) (init done : List Nat) (value : Nat)
    (hsize : size ≤ init.length) (hlt : done.length < size) :
    ((decodedState size init done).1 + 1,
      (decodedState size init done).2.set (decodedState size init done).1 value)
      = decodedState size init (done ++ [value]) := by
  have hmin : min done.length size = done.length := Nat.min_eq_left (le_of_lt hlt)
  have hmin1 : min (done.length + 1) size = done.length + 1 := Nat.min_eq_left hlt
  have htake : done.take size = done := List.take_of_length_le (le_of_lt hlt)
  have htake1 : (done ++ [value]).take size = done ++ [value] :=
    List.take_of_length_le (by simp; omega)
  have hdrop : init.drop done.length = init[done.length] :: init.drop (done.length + 1) :=
    List.drop_eq_getElem_cons (by omega)
  simp only [decodedState, hmin, htake, List.length_append, List.length_singleton, hmin1, htake1]
  rw [List.set_append_right _ _ (le_refl _), Nat.sub_self, hdrop, List.set_cons_zero,
    List.append_assoc]
  rfl

theorem decodeRun_state (value size : Nat) (init : List Nat) (hsize : size ≤ init.length)
    (remaining : Nat) (done : List Nat) :
    decodeRun value size remaining (decodedState size init done).1 (decodedState size init done).2
      = decodedState size init (done ++ List.replicate remaining value) := by
  induction remaining generalizing done with
  | zero => simp [decodeRun]
  | succ remaining ih =>
    by_cases hlt : done.length < size
    · have hj : (decodedState size init done).1 < size := by
        simp only [decodedState]; omega
      have hstep := decodedState_step size init done value hsize hlt
      have h1 := congrArg Prod.fst hstep
      have h2 := congrArg Prod.snd hstep
      simp only at h1 h2
      rw [decodeRun, if_pos hj, h1, h2, ih (done ++ [value])]
      simp [List.replicate_succ]
    · have hj : ¬ (decodedState size init done).1 < size := by
        simp only [decodedState]; omega
      rw [decodeRun, if_neg hj]
      have hge : size ≤ done.length := by omega
      simp only [decodedState, List.length_append, List.length_replicate]
      rw [Nat.min_eq_right hge, Nat.min_eq_right (by omega), List.take_append_of_le_length hge]

theorem decodePairs_state (size : Nat) (init : List Nat) (hsize : size ≤ init.length)
    (pairs done : List Nat) :
    decodePairs size pairs (decodedState size init done).1 (decodedState size init done).2
      = decodedState size init (done ++ expandPairs pairs) := by
  induction pairs using expandPairs.induct generalizing done with
  | case1 value count rest ih =>
    rw [decodePairs]
    rw [decodeRun_state value size init hsize count done, ih, expandPairs, List.append_assoc]
  | case2 pairs hne =>
    have h1 : expandPairs pairs = [] := by
      unfold expandPairs
      split
      · exact absurd rfl (hne _ _ _)
      · rfl
    have h2 : ∀ j decoded, decodePairs size pairs j decoded = (j, decoded) := by
      intro j decoded
      unfold decodePairs
      split
      · exact absurd rfl (hne _ _ _)
      · rfl
    rw [h1, h2, List.append_nil]

theorem expandPairs_length (payload : List Nat) :
    (expandPairs payload).length = runLengthSum payload := by
  induction payload using expandPairs.induct with
  | case1 value count rest ih => simp [expandPairs, runLengthSum, ih]
  | case2 pairs hne =>
    have h1 : expandPairs pairs = [] := by
      unfold expandPairs
      split
      · exact absurd rfl (hne _ _ _)
      · rfl
    have h2 : runLengthSum pairs = 0 := by
      unfold runLengthSum
      split
      · exact absurd rfl (hne _ _ _)
      · rfl
    simp [h1, h2]

theorem decode_eq_expand (payload : List Nat) (n : Nat) (init : List Nat)
    (hn : n ≤ init.length) :
    decode payload n init
      = (expandPairs payload).take n ++ init.drop (min (expandPairs payload).length n) := by
  have h := decodePairs_state n init hn payload []
  have h0 : decodedState n init [] = (0, init) := by simp [decodedState]
  rw [h0] at h
  simp only at h
  rw [decode_eq_decodePairs, h]
  simp [decodedState]

theorem expandPairs_pairBytes_append (ps : List (Nat × Nat)) (rest : List Nat) :
    expandPairs (pairBytes ps ++ rest) = expandPairs (pairBytes ps) ++ expandPairs rest := by
  induction ps with
  | nil => simp [pairBytes, expandPairs]
  | cons p ps ih => simp [pairBytes, expandPairs, ih]

theorem expandPairs_singleton (last : Nat) : expandPairs [last] = [] := by
  simp [expandPairs]

theorem decode_untouched (payload : List Nat) (n : Nat) (init : List Nat)
    (hn : n ≤ init.length) (k : Nat) (hk : min n (runLengthSum payload) ≤ k) :
    (decode payload n init)[k]? = init[k]? := by
  rw [decode_eq_expand payload n init hn]
  have hlen : ((expandPairs payload).take n).length = min n (runLengthSum payload) := by
    rw [List.length_take, expandPairs_length]
  rw [List.getElem?_append_right (by omega), hlen, expandPairs_length,
    Nat.min_comm (runLengthSum payload) n, List.getElem?_drop]
  congr 1
  omega

/-- C7. The decode loop of `RLEImageReader::read`, run on any payload with
target length `n` over a buffer of at least `n` cells: the buffer ends up
holding the first `min n total` samples of the expansion of the complete
`(value, count)` pairs, `total` being the sum of the counts; every cell from
index `min n total` on (so every index `≥ n`) keeps its prior content; a
pair with count 0 and a trailing unpaired byte change nothing. -/
theorem decode_fills_buffer (payload : List Nat) (n : Nat) (init : List Nat)
    (hn : n ≤ init.length) :
    decode payload n init
        = (expandPairs payload).take (min n (runLengthSum payload))
            ++ init.drop (min n (runLengthSum payload))
      ∧ (expandPairs payload).length = runLengthSum payload
      ∧ (∀ k, n ≤ k → (decode payload n init)[k]? = init[k]?)
      ∧ (∀ ps value rest, decode (pairBytes ps ++ value :: 0 :: rest) n init
          = decode (pairBytes ps ++ rest) n init)
      ∧ (∀ ps last, decode (pairBytes ps ++ [last]) n init = decode (pairBytes ps) n init) := by
  refine ⟨?_, expandPairs_length payload, ?_, ?_, ?_⟩
  · rw [decode_eq_expand payload n init hn, expandPairs_length,
      Nat.min_comm (runLengthSum payload) n]
    congr 1
    rw [← expandPairs_length, List.take_eq_take]
    simp
  · intro k hk
    exact decode_untouched payload n init hn k (le_trans (Nat.min_le_left _ _) hk)
  · intro ps value rest
    rw [decode_eq_expand _ n init hn, decode_eq_expand _ n init hn,
      expandPairs_pairBytes_append, expandPairs_pairBytes_append]
    simp [expandPairs]
  · intro ps last
    rw [decode_eq_expand _ n init hn, decode_eq_expand _ n init hn,
      expandPairs_pairBytes_append, expandPairs_singleton, List.append_nil]

/-- C7, witness: the payload `(10,2),(9,0),(200,2)` with a trailing byte,
decoded with target length 3 into a 5-cell buffer. -/
theorem decode_fills_buffer_witness :
    3 ≤ [1, 2, 3, 4, 5].length
      ∧ decode [10, 2, 9, 0, 200, 2, 77] 3 [1, 2, 3, 4, 5] = [10, 10, 200, 4, 5] :=
  ⟨by decide,
    (decode_fills_buffer [10, 2, 9, 0, 200, 2, 77] 3 [1, 2, 3, 4, 5] (by decide)).1.trans
      (by decide)⟩

/-! ## Block::operator== with a zero error margin -/

theorem eqLoopExact_iff (xs ys : List Nat) (hlen : xs.length = ys.length) :
    eqLoopExact xs ys = true ↔ xs = ys := by
  induction xs generalizing ys with
  | nil =>
    cases ys with
    | nil => simp [eqLoopExact]
    | cons y ys => simp at hlen
  | cons x xs ih =>
    cases ys with
    | nil => simp at hlen
    | cons y ys =>
      have hlen1 : xs.length = ys.length := by simpa using hlen
      by_cases hxy : x = y
      · simp [eqLoopExact, hxy, ih ys hlen1]
      · simp [eqLoopExact, hxy]

theorem beq_exact_iff_data (a b : Block) (ha : a.error_margin = 0) :
    a.beq b = true ↔ a.data = b.data := by
  unfold Block.beq Block.getSize
  by_cases hlen : a.data.length = b.data.length
  · simp only [ne_eq, hlen, not_true_eq_false, if_false, ha, if_true]
    exact eqLoopExact_iff a.data b.data hlen
  · have hne : a.data ≠ b.data := fun h => hlen (by rw [h])
    simp [hlen, hne]

theorem data_eq_iff_samples (a b : Block) :
    a.data = b.data
      ↔ a.getSize = b.getSize ∧ ∀ i, i < a.getSize → a.index i = b.index i := by
  unfold Block.getSize Block.index
  constructor
  · intro h
    rw [h]
    exact ⟨rfl, fun _ _ => rfl⟩
  · rintro ⟨hlen, hall⟩
    apply List.ext_getElem?
    intro i
    by_cases hi : i < a.data.length
    · exact hall i hi
    · rw [List.getElem?_eq_none (by omega), List.getElem?_eq_none (by omega)]

/-- C8. For blocks whose `error_margin` is 0, `operator==` is exact
element-wise equality: `a == b` holds iff the sizes are equal and the samples
agree at every index; it is reflexive and symmetric. -/
theorem beq_exact (a b : Block) (ha : a.error_margin = 0) (hb : b.error_margin = 0) :
    (a.beq b = true
        ↔ a.getSize = b.getSize ∧ ∀ i, i < a.getSize → a.index i = b.index i)
      ∧ a.beq a = true
      ∧ (a.beq b = true ↔ b.beq a = true) := by
  refine ⟨?_, ?_, ?_⟩
  · rw [beq_exact_iff_data a b ha, data_eq_iff_samples]
  · rw [beq_exact_iff_data a a ha]
  · rw [beq_exact_iff_data a b ha, beq_exact_iff_data b a hb]
    exact eq_comm

/-- C8, witness: two zero-margin blocks holding `[1, 2]` are equal, in both
orders. -/
theorem beq_exact_witness :
    (Block.mk [1, 2] 0).error_margin = 0
      ∧ Block.beq ⟨[1, 2], 0⟩ ⟨[1, 2], 0⟩ = true
      ∧ Block.beq ⟨[1, 2], 0⟩ ⟨[1, 3], 0⟩ = false :=
  ⟨rfl, (beq_exact ⟨[1, 2], 0⟩ ⟨[1, 2], 0⟩ rfl rfl).2.1,
    Bool.eq_false_iff.mpr (fun h =>
      absurd ((beq_exact ⟨[1, 2], 0⟩ ⟨[1, 3], 0⟩ rfl rfl).1.mp h) (by decide))⟩

/-! ## Block::copyFromImage -/

theorem readCells_inside (mem : List Nat) (n off : Nat) (h : off + n ≤ mem.length) :
    readCells mem off n = some ((mem.drop off).take n) := by
  induction n generalizing off with
  | zero => simp [readCells]
  | succ n ih =>
    have hoff : off < mem.length := by omega
    rw [readCells, ih (off + 1) (by omega), List.getElem?_eq_getElem hoff]
    simp only []
    rw [List.drop_eq_getElem_cons hoff, List.take_succ_cons]

theorem readCells_outside (mem : List Nat) (n off : Nat) (hn : 0 < n)
    (h : mem.length < off + n) :
    readCells mem off n = none := by
  induction n generalizing off with
  | zero => omega
  | succ n ih =>
    rw [readCells]
    by_cases hoff : off < mem.length
    · rw [ih (off + 1) (by omega) (by omega)]
      cases mem[off]? <;> rfl
    · rw [List.getElem?_eq_none (by omega)]

theorem copyFromImage_null_iff (u : Fresh) (src : Image) (channel : Nat) (pos : Nat × Nat)
    (size : Nat) :
    Block.copyFromImage u src channel pos size = Ret.null
      ↔ size = 0 ∨ pos.2 ≥ src.height ∨ pos.1 ≥ src.width := by
  unfold Block.copyFromImage
  simp only []
  split
  · simp [*]
  · split <;> simp [*]

theorem copyFromImage_inside (u : Fresh) (src : Image) (channel : Nat) (pos : Nat × Nat)
    (size : Nat) (hsize : size ≠ 0) (hy : pos.2 < src.height) (hx : pos.1 < src.width)
    (off : Nat)
    (hoff : off = (channel * ((src.width * src.height) % 2 ^ 32)) % 2 ^ 32
      + (pos.2 * src.width + pos.1) % 2 ^ 32)
    (hin : off + size ≤ src.raw.length) :
    Block.copyFromImage u src channel pos size
      = Ret.val ⟨(src.raw.drop off).take size, u.margin⟩ := by
  unfold Block.copyFromImage
  simp only []
  rw [if_neg (by omega), ← hoff, readCells_inside src.raw size off hin]
  rfl

/-- C3. On the 2×2 image with planar samples 1..12, the request (RED,
position (1, 0), size 2) is answered with the two-sample block `[2, 3]`: the
length is the requested `size`, not `min(size, width - position.x) = 1`, and
the second sample is the first sample of the next row. -/
theorem copyFromImage_not_clamped (u : Fresh) :
    Block.copyFromImage u ⟨2, 2, [1, 2, 3, 4, 5, 6, 7, 8, 9, 10, 11, 12]⟩ 0 (1, 0) 2
        = Ret.val ⟨[2, 3], u.margin⟩
      ∧ Block.getSize ⟨[2, 3], u.margin⟩ ≠ min 2 (2 - 1) := by
  constructor
  · rfl
  · simp [Block.getSize]

/-- C4. On the 1×1 image with planar samples 1, 2, 3, the request (BLUE,
position (0, 0), size 2) passes the guard, and the copy of 2 cells from
planar index 2 then reads index 3, outside the 3-cell buffer: no block is
returned. -/
theorem copyFromImage_overrun (u : Fresh) :
    Block.copyFromImage u ⟨1, 1, [1, 2, 3]⟩ 2 (0, 0) 2 = Ret.fault := by
  rfl

/-! ## Block::operator== with a non-zero error margin -/

/-- C9. With margin 1, `operator==` answers `false` for two blocks holding
the same sample 5, and `true` for the blocks `[0]` and `[200]`, whose
samples differ by 200: the second loop leaves with `false` on a pair that is
within the margin. -/
theorem beq_margin_inverted :
    Block.beq ⟨[5], 1⟩ ⟨[5], 1⟩ = false ∧ Block.beq ⟨[0], 1⟩ ⟨[200], 1⟩ = true := by
  decide

theorem eqLoopMargin_iff (m : Nat) (xs ys : List Nat) :
    eqLoopMargin m xs ys = true
      ↔ ∀ p ∈ xs.zip ys, m < Int.natAbs ((p.1 : Int) - (p.2 : Int)) := by
  induction xs generalizing ys with
  | nil => simp [eqLoopMargin]
  | cons x xs ih =>
    cases ys with
    | nil => simp [eqLoopMargin]
    | cons y ys =>
      by_cases hxy : Int.natAbs ((x : Int) - (y : Int)) ≤ m
      · simp only [eqLoopMargin, hxy, if_true, List.zip_cons_cons, List.mem_cons]
        constructor
        · intro h; exact absurd h (by decide)
        · intro h
          have := h (x, y) (Or.inl rfl)
          simp only at this
          omega
      · simp only [eqLoopMargin, hxy, if_false, ih ys, List.zip_cons_cons, List.mem_cons]
        constructor
        · rintro h p (rfl | hp)
          · simp only; omega
          · exact h p hp
        · intro h p hp
          exact h p (Or.inr hp)

/-- What `operator==` computes for a non-zero margin: equal sizes and every
pair of samples further apart than the margin. -/
theorem beq_margin_iff (a b : Block) (hm : a.error_margin ≠ 0) :
    a.beq b = true
      ↔ a.getSize = b.getSize
        ∧ ∀ p ∈ a.data.zip b.data, a.error_margin < Int.natAbs ((p.1 : Int) - (p.2 : Int)) := by
  unfold Block.beq
  by_cases hlen : a.getSize = b.getSize
  · simp only [ne_eq, hlen, not_true_eq_false, if_false, hm, true_and]
    exact eqLoopMargin_iff a.error_margin a.data b.data
  · simp [hlen]

/-! ## Block::reverse -/

/-- C10. Reversing the block `[1, 2, 3, 4]` reads `data[4]` in the first
loop step, outside the buffer, so no reversed block is produced; reversing
the one-sample block `[7]` runs no loop step and returns the fresh block
unchanged, whose sample is whatever the allocation held. -/
theorem reverse_not_reversed (u : Fresh) :
    Block.reverse u ⟨[1, 2, 3, 4], 0⟩ = none
      ∧ Block.reverse u ⟨[7], 0⟩ = some ⟨[u.sample 0], u.margin⟩ := by
  constructor <;> rfl

/-! ## compress: runs longer than 255 -/

theorem compress_replicate (v err m n : Nat) (hn : 0 < n) :
    compress ⟨List.replicate n v, m⟩ err = some [v, n % 256] := by
  have h0 : Block.index ⟨List.replicate n v, m⟩ 0 = some v := by
    simp [Block.index, List.getElem?_replicate, hn]
  have hall : ∀ c ∈ (Block.mk (List.replicate n v) m).data, within err c v := by
    intro c hc
    rw [List.eq_of_mem_replicate hc]
    simp [within]
  rw [compress_within _ err v h0 hall]
  simp [Block.getSize]

/-- C6. A block of 256 equal samples compresses to the single pair
`(7, 0)`: the count 256 is narrowed to a byte, and the run lengths sum to 0,
not to the block's size 256. -/
theorem compress_count_wraps :
    compress ⟨List.replicate 256 7, 0⟩ 0 = some [7, 0]
      ∧ runLengthSum [7, 0] = 0
      ∧ Block.getSize ⟨List.replicate 256 7, 0⟩ = 256 :=
  ⟨compress_replicate 7 0 0 256 (by decide), rfl, List.length_replicate 256 7⟩

theorem compressLoop_replicate (err current n : Nat) (rest : List Nat) (count : Nat)
    (result : List Nat) :
    compressLoop err (List.replicate n current ++ rest) current count result
      = compressLoop err rest current (count + n) result := by
  induction n generalizing count with
  | zero => simp
  | succ n ih =>
    rw [List.replicate_succ, List.cons_append, compressLoop]
    simp only [sub_self, Int.natAbs_zero, Nat.zero_le, if_true]
    rw [ih (count + 1)]
    congr 1
    omega

theorem replicate_append_index_zero (n v w : Nat) (hn : 0 < n) :
    (List.replicate n v ++ [w])[0]? = some v := by
  rw [List.getElem?_append_left (by simpa using hn), List.getElem?_replicate, if_pos hn]

theorem compress_replicate_then (m n : Nat) (hn : 0 < n) :
    compress ⟨List.replicate n 0 ++ [1], m⟩ 0 = some [0, n % 256, 1, 1] := by
  have h0 : Block.index ⟨List.replicate n 0 ++ [1], m⟩ 0 = some 0 :=
    replicate_append_index_zero n 0 1 hn
  unfold compress
  rw [h0]
  simp only []
  rw [compressLoop_replicate]
  simp [compressLoop]

theorem compress_longRow (m : Nat) : compress ⟨longRow, m⟩ 0 = some [0, 0, 1, 1] :=
  compress_replicate_then m 256 (by decide)

theorem longRow_index_zero : longRow[0]? = some 0 :=
  replicate_append_index_zero 256 0 1 (by decide)

/-- C1. The block of 256 samples 0 followed by one sample 1, at tolerance 0,
compresses to the pairs `(0, 0), (1, 1)`: the count 256 is narrowed to the
byte 0. Decoding these pairs into a buffer of the block's length 257 writes
the single sample 1 at index 0, whatever the buffer held (`init`), so the
block is not reproduced. -/
theorem roundtrip_long_run_fails :
    compress ⟨longRow, 0⟩ 0 = some [0, 0, 1, 1]
      ∧ ∀ init : Nat → Nat,
          decode [0, 0, 1, 1] 257 ((List.range 257).map init)
              = 1 :: ((List.range 257).map init).drop 1
            ∧ decode [0, 0, 1, 1] 257 ((List.range 257).map init) ≠ longRow := by
  refine ⟨compress_longRow 0, ?_⟩
  intro init
  have hlen : 257 ≤ ((List.range 257).map init).length := by
    rw [List.length_map, List.length_range]
  have hdec : decode [0, 0, 1, 1] 257 ((List.range 257).map init)
      = 1 :: ((List.range 257).map init).drop 1 := by
    rw [decode_eq_expand _ _ _ hlen]
    rfl
  refine ⟨hdec, ?_⟩
  rw [hdec]
  intro heq
  have h := congrArg (fun l : List Nat => l[0]?) heq
  simp only [List.getElem?_cons_zero, longRow_index_zero] at h
  exact absurd h (by decide)

/-! ## Writing and reading back an image with a run longer than 255 -/

theorem longRow_length : longRow.length = 257 := by
  rw [longRow, List.length_append, List.length_replicate, List.length_singleton]

theorem longImage_raw_length : longImage.raw.length = 771 := by
  show (longRow ++ (longRow ++ longRow)).length = 771
  rw [List.length_append, List.length_append, longRow_length]

theorem longImage_channel (c : Nat) (hc : c < 3) :
    (longImage.raw.drop (c * 257)).take 257 = longRow := by
  show ((longRow ++ (longRow ++ longRow)).drop (c * 257)).take 257 = longRow
  have h1 : (longRow ++ longRow).length = 514 := by
    rw [List.length_append, longRow_length]
  match c, hc with
  | 0, _ =>
    rw [Nat.zero_mul, List.drop_zero, List.take_left' longRow_length]
  | 1, _ =>
    rw [Nat.one_mul, List.drop_left' longRow_length, List.take_left' longRow_length]
  | 2, _ =>
    rw [← List.append_assoc, List.drop_left' h1, List.take_of_length_le (by rw [longRow_length])]

theorem copyFromImage_longImage (u : Fresh) (c : Nat) (hc : c < 3) :
    Block.copyFromImage u longImage c (0, 0) 257 = Ret.val ⟨longRow, u.margin⟩ := by
  have h := copyFromImage_inside u longImage c (0, 0) 257 (by decide) (by decide) (by decide)
    (c * 257)
    (by
      show c * 257 = (c * ((257 * 1) % 2 ^ 32)) % 2 ^ 32 + (0 * 257 + 0) % 2 ^ 32
      omega)
    (by rw [longImage_raw_length]; omega)
  rw [h, longImage_channel c hc]

theorem writeBlock_longImage (u : Fresh) (c : Nat) (hc : c < 3) :
    writeBlock u longImage c (0, 0) 257 0 = some [0, 0, 1, 1] := by
  unfold writeBlock
  rw [copyFromImage_longImage u c hc]
  exact compress_longRow u.margin

theorem writeRow_single (u : Fresh) (src : Image) (chanel y block_length threshold : Nat)
    (b_last : Int) :
    writeRow u src chanel y block_length threshold 1 b_last
      = writeBlock u src chanel (0, y) (toSizeT b_last) threshold := by
  unfold writeRow
  simp only [Nat.sub_self, writeFullBlocks]
  cases writeBlock u src chanel (0, y) (toSizeT b_last) threshold <;> rfl

theorem writeRows_longImage (u : Fresh) (c : Nat) (hc : c < 3) :
    writeRows u longImage c 257 0 1 257 1 0 = some [0, 0, 1, 1] := by
  have hrow : writeRow u longImage c 0 257 0 1 257 = some [0, 0, 1, 1] := by
    rw [writeRow_single]
    have hsz : toSizeT 257 = 257 := by decide
    rw [hsz]
    exact writeBlock_longImage u c hc
  have hh : (0 : Nat) < longImage.height := by decide
  rw [writeRows, if_pos hh, hrow]
  rfl

/-- C2. The image of width 257 and height 1 whose channels are 256 samples
0 followed by a sample 1, written with block length 257 and threshold 0,
yields the header followed by the pairs `(0, 0), (1, 1)` per channel;
reading that file back gives a 257×1 image whose first three samples are 1,
the rest of the buffer never being written (`init`), while the original's
first sample is 0. -/
theorem image_roundtrip_long_run_fails (u : Fresh) (init : Nat → Nat) :
    (RLEImageWriter.create.setBlockDimension 257).write u longImage
        = some [67, 80, 73, 2, 2, 1, 1, 1, 1, 0, 1, 1, 0, 0, 1, 1, 0, 0, 1, 1, 0, 0, 1, 1]
      ∧ RLEImageReader.read init
          [67, 80, 73, 2, 2, 1, 1, 1, 1, 0, 1, 1, 0, 0, 1, 1, 0, 0, 1, 1, 0, 0, 1, 1]
        = Ret.val ⟨257, 1, [1, 1, 1] ++ ((List.range 771).map init).drop 3⟩
      ∧ longImage.raw[0]? = some 0 := by
  refine ⟨?_, ?_, ?_⟩
  · have hw : RLEImageWriter.create.setBlockDimension 257 = ⟨257, 0⟩ := by decide
    have hn : nBlocks longImage.width 257 = some 1 := by decide
    have hb : bLast longImage.width 1 257 = 257 := by decide
    have hh : longImage.height = 1 := rfl
    rw [hw]
    unfold RLEImageWriter.write
    simp only [hn, hb, hh, writeRows_longImage u 0 (by decide),
      writeRows_longImage u 1 (by decide), writeRows_longImage u 2 (by decide)]
    rfl
  · have hlen : 771 ≤ ((List.range 771).map init).length := by
      rw [List.length_map, List.length_range]
    have hdec := decode_eq_expand [0, 0, 1, 1, 0, 0, 1, 1, 0, 0, 1, 1] 771
      ((List.range 771).map init) hlen
    have hexp : expandPairs [0, 0, 1, 1, 0, 0, 1, 1, 0, 0, 1, 1] = [1, 1, 1] := by decide
    rw [hexp] at hdec
    unfold RLEImageReader.read
    simp only [List.length_cons, List.length_nil]
    rw [if_neg (by decide), if_neg (by decide), if_neg (by decide), if_neg (by decide)]
    show Ret.val (Image.mk 257 1 (decode [0, 0, 1, 1, 0, 0, 1, 1, 0, 0, 1, 1] 771
      ((List.range 771).map init))) = _
    rw [hdec]
    rfl
  · show (longRow ++ (longRow ++ longRow))[0]? = some 0
    rw [List.getElem?_append_left (by rw [longRow_length]; decide)]
    exact longRow_index_zero

/-! ## compress and decode on blocks of at most 255 samples -/

theorem pairBytes_append (ps qs : List (Nat × Nat)) :
    pairBytes (ps ++ qs) = pairBytes ps ++ pairBytes qs := by
  induction ps with
  | nil => rfl
  | cons p ps ih => simp [pairBytes, ih]

theorem expand_compressLoop_exact (xs : List Nat) (current count : Nat)
    (ps : List (Nat × Nat)) (hlen : count + xs.length ≤ 255) :
    expandPairs (compressLoop 0 xs current count (pairBytes ps))
      = expandPairs (pairBytes ps) ++ List.replicate count current ++ xs := by
  induction xs generalizing current count ps with
  | nil =>
    have hc : count % 256 = count := Nat.mod_eq_of_lt (by simp at hlen; omega)
    simp [compressLoop, expandPairs_pairBytes_append, expandPairs, hc]
  | cons c rest ih =>
    simp only [List.length_cons] at hlen
    rw [compressLoop]
    by_cases hc : c = current
    · subst hc
      simp only [sub_self, Int.natAbs_zero, Nat.le_refl, if_true]
      rw [ih c (count + 1) ps (by omega), List.replicate_succ', List.append_assoc,
        List.append_assoc, List.append_assoc]
      rfl
    · have hw : ¬ Int.natAbs ((c : Int) - (current : Int)) ≤ 0 := by omega
      have hcm : count % 256 = count := Nat.mod_eq_of_lt (by omega)
      have hps : pairBytes ps ++ [current, count % 256]
          = pairBytes (ps ++ [(current, count % 256)]) := by
        simp [pairBytes_append, pairBytes]
      rw [if_neg hw, hps, ih c 1 _ (by omega), pairBytes_append, expandPairs_pairBytes_append,
        hcm]
      simp [pairBytes, expandPairs]

theorem runLengthSum_pairBytes_append (ps : List (Nat × Nat)) (rest : List Nat) :
    runLengthSum (pairBytes ps ++ rest) = runLengthSum (pairBytes ps) + runLengthSum rest := by
  induction ps with
  | nil => simp [pairBytes, runLengthSum]
  | cons p ps ih => simp [pairBytes, runLengthSum, ih, Nat.add_assoc]

theorem runLengthSum_compressLoop (err : Nat) (xs : List Nat) (current count : Nat)
    (ps : List (Nat × Nat)) (hlen : count + xs.length ≤ 255) :
    runLengthSum (compressLoop err xs current count (pairBytes ps))
      = runLengthSum (pairBytes ps) + count + xs.length := by
  induction xs generalizing current count ps with
  | nil =>
    have hc : count % 256 = count := Nat.mod_eq_of_lt (by simp at hlen; omega)
    simp [compressLoop, runLengthSum_pairBytes_append, runLengthSum, hc]
  | cons c rest ih =>
    simp only [List.length_cons] at hlen
    rw [compressLoop]
    split
    · rw [ih current (count + 1) ps (by omega)]
      simp only [List.length_cons]
      omega
    · have hcm : count % 256 = count := Nat.mod_eq_of_lt (by omega)
      have hps : pairBytes ps ++ [current, count % 256]
          = pairBytes (ps ++ [(current, count % 256)]) := by
        simp [pairBytes_append, pairBytes]
      rw [hps, ih c 1 _ (by omega), pairBytes_append, runLengthSum_pairBytes_append, hcm]
      simp only [pairBytes, runLengthSum, List.length_cons]
      omega

/-- Round trip at tolerance 0 for a block of 1 to 255 samples: `compress`
returns a payload, and the decode loop expands it, in a buffer of the
block's length, to the block's samples. -/
theorem roundtrip_short_block (bl : Block) (init : List Nat) (h1 : 1 ≤ bl.getSize)
    (h255 : bl.getSize ≤ 255) (hinit : init.length = bl.getSize) :
    ∃ out, compress bl 0 = some out ∧ decode out bl.getSize init = bl.data := by
  obtain ⟨data, m⟩ := bl
  cases data with
  | nil => simp [Block.getSize] at h1
  | cons x xs =>
    simp only [Block.getSize] at h255 hinit ⊢
    refine ⟨compressLoop 0 (x :: xs) x 0 [], by simp [compress, Block.index], ?_⟩
    have hexp := expand_compressLoop_exact (x :: xs) x 0 [] (by omega)
    simp only [pairBytes, expandPairs, List.replicate_zero, List.nil_append] at hexp
    rw [decode_eq_expand _ _ _ (by omega), hexp, List.take_of_length_le (le_refl _),
      Nat.min_self, ← hinit, List.drop_length, List.append_nil]

/-- For a block of 1 to 255 samples and any tolerance, the count bytes of
the output of `compress` sum to the block's size. -/
theorem runLengthSum_short_block (bl : Block) (err : Nat) (h1 : 1 ≤ bl.getSize)
    (h255 : bl.getSize ≤ 255) :
    ∃ out, compress bl err = some out ∧ runLengthSum out = bl.getSize := by
  obtain ⟨data, m⟩ := bl
  cases data with
  | nil => simp [Block.getSize] at h1
  | cons x xs =>
    simp only [Block.getSize] at h255 ⊢
    refine ⟨compressLoop err (x :: xs) x 0 [], by simp [compress, Block.index], ?_⟩
    have h := runLengthSum_compressLoop err (x :: xs) x 0 [] (by omega)
    simpa [pairBytes, runLengthSum] using h

/-! ## The float computation of the number of blocks -/

theorem excessBits_spec (fuel n : Nat) (h : n ≤ fuel) :
    n / 2 ^ excessBits fuel n < 2 ^ 24
      ∧ (excessBits fuel n ≠ 0 → 2 ^ 23 ≤ n / 2 ^ excessBits fuel n) := by
  induction fuel generalizing n with
  | zero =>
    have hn : n = 0 := by omega
    subst hn
    simp [excessBits]
  | succ fuel ih =>
    by_cases hlt : n < 2 ^ 24
    · have hE : excessBits (fuel + 1) n = 0 := by rw [excessBits, if_pos hlt]
      rw [hE, Nat.pow_zero, Nat.div_one]
      exact ⟨hlt, fun h0 => absurd rfl h0⟩
    · have hhalf : n / 2 ≤ fuel := by omega
      obtain ⟨h1, h2⟩ := ih (n / 2) hhalf
      have hdiv : n / 2 ^ (excessBits fuel (n / 2) + 1) = n / 2 / 2 ^ excessBits fuel (n / 2) := by
        rw [Nat.pow_succ, Nat.mul_comm, Nat.div_div_eq_div_mul]
      have hE : excessBits (fuel + 1) n = excessBits fuel (n / 2) + 1 := by
        rw [excessBits, if_neg hlt]
      rw [hE, hdiv]
      refine ⟨h1, fun _ => ?_⟩
      by_cases he : excessBits fuel (n / 2) = 0
      · rw [he, Nat.pow_zero, Nat.div_one]
        omega
      · exact h2 he

theorem roundHalfEven_near (num den : Nat) (hden : 0 < den) :
    2 * (roundHalfEven num den * den) ≤ 2 * num + den
      ∧ 2 * num ≤ 2 * (roundHalfEven num den * den) + den := by
  have hsplit : den * (num / den) + num % den = num := Nat.div_add_mod num den
  have hr : num % den < den := Nat.mod_lt num hden
  have hq1 : (num / den + 1) * den = den * (num / den) + den := by ring
  have hq0 : num / den * den = den * (num / den) := Nat.mul_comm _ _
  unfold roundHalfEven
  simp only []
  split
  · rw [hq0]; omega
  · split
    · rw [hq1]; omega
    · split
      · rw [hq0]; omega
      · rw [hq1]; omega

theorem roundHalfEven_exact (k den : Nat) (hden : 0 < den) :
    roundHalfEven (k * den) den = k := by
  unfold roundHalfEven
  simp [Nat.mul_mod_left, Nat.mul_div_cancel _ hden, hden]

theorem toFloat_small (n : Nat) (h : n < 2 ^ 24) : toFloat n = n := by
  have he : excessBits n n = 0 := by
    cases n with
    | zero => rfl
    | succ n => rw [excessBits, if_pos h]
  unfold toFloat
  simp only [he, Nat.pow_zero, Nat.mul_one]
  simpa using roundHalfEven_exact n 1 Nat.one_pos

theorem ceilFloat_between (v k : Nat) (h1 : k * 2 ^ 40 < v) (h2 : v < (k + 1) * 2 ^ 40) :
    ceilFloat v = k + 1 := by
  unfold ceilFloat
  apply Nat.div_eq_of_lt_le
  · omega
  · omega

theorem ceilFloat_integer (k : Nat) : ceilFloat (k * 2 ^ 40) = k := by
  unfold ceilFloat
  apply Nat.div_eq_of_lt_le
  · omega
  · omega

theorem divFloat_ceil (w b : Nat) (hw : w < 2 ^ 24) (hb0 : 0 < b) (hb : b < 2 ^ 16) :
    ceilFloat (divFloat w b) = (w + b - 1) / b := by
  by_cases hw0 : w = 0
  · subst hw0
    have h0 : divFloat 0 b = 0 := by
      unfold divFloat
      simp only [Nat.zero_mul, Nat.zero_div]
      have he : excessBits 0 0 = 0 := rfl
      rw [he, Nat.pow_zero, Nat.mul_one, Nat.mul_one]
      simpa using roundHalfEven_exact 0 b hb0
    rw [h0]
    have hr : (0 + b - 1) / b = 0 := Nat.div_eq_of_lt (by omega)
    rw [hr]
    exact ceilFloat_integer 0
  · -- the scaled quotient and its exponent
    obtain ⟨e, he⟩ : ∃ e, e = excessBits (w * 2 ^ 40 / b) (w * 2 ^ 40 / b) := ⟨_, rfl⟩
    have hspec := excessBits_spec (w * 2 ^ 40 / b) (w * 2 ^ 40 / b) (le_refl _)
    rw [← he] at hspec
    have hNlo : 2 ^ 24 ≤ w * 2 ^ 40 / b := by
      rw [Nat.le_div_iff_mul_le hb0]
      have : 2 ^ 24 * b ≤ 2 ^ 24 * 2 ^ 16 := Nat.mul_le_mul_left _ (le_of_lt hb)
      omega
    have he0 : e ≠ 0 := by
      intro h0
      rw [h0, Nat.pow_zero, Nat.div_one] at hspec
      omega
    have hlo : 2 ^ 23 * 2 ^ e ≤ w * 2 ^ 40 / b := by
      have := hspec.2 he0
      rwa [Nat.le_div_iff_mul_le (Nat.pos_pow_of_pos e (by decide))] at this
    have hNb : w * 2 ^ 40 / b * b ≤ w * 2 ^ 40 := Nat.div_mul_le_self _ _
    have hDb : 2 ^ 23 * (b * 2 ^ e) ≤ w * 2 ^ 40 := by
      calc 2 ^ 23 * (b * 2 ^ e) = 2 ^ 23 * 2 ^ e * b := by ring
        _ ≤ w * 2 ^ 40 / b * b := Nat.mul_le_mul_right _ hlo
        _ ≤ w * 2 ^ 40 := hNb
    have hD : b * 2 ^ e < 2 ^ 41 := by omega
    have hDpos : 0 < b * 2 ^ e := Nat.mul_pos hb0 (Nat.pos_pow_of_pos e (by decide))
    have hpow : 2 ^ e < 2 ^ 41 := by
      have : 2 ^ e ≤ b * 2 ^ e := Nat.le_mul_of_pos_left _ hb0
      omega
    have he40 : e ≤ 40 := by
      have := (Nat.pow_lt_pow_iff_right (by decide : 1 < 2)).mp hpow
      omega
    have hnear := roundHalfEven_near (w * 2 ^ 40) (b * 2 ^ e) hDpos
    have hval : divFloat w b = roundHalfEven (w * 2 ^ 40) (b * 2 ^ e) * 2 ^ e := by
      unfold divFloat
      simp only []
      rw [← he]
    have hvb : roundHalfEven (w * 2 ^ 40) (b * 2 ^ e) * 2 ^ e * b
        = roundHalfEven (w * 2 ^ 40) (b * 2 ^ e) * (b * 2 ^ e) := by ring
    have hsplit : b * (w / b) + w % b = w := Nat.div_add_mod w b
    rw [hval]
    by_cases hr : w % b = 0
    · -- the quotient is an integer: the division is exact
      have hwk : w = w / b * b := by rw [Nat.mul_comm]; omega
      have hexact : w * 2 ^ 40 = (w / b * 2 ^ (40 - e)) * (b * 2 ^ e) := by
        have hp : (2 : Nat) ^ 40 = 2 ^ (40 - e) * 2 ^ e := by
          rw [← Nat.pow_add]; congr 1; omega
        calc w * 2 ^ 40 = w / b * b * (2 ^ (40 - e) * 2 ^ e) := by rw [← hwk, ← hp]
          _ = (w / b * 2 ^ (40 - e)) * (b * 2 ^ e) := by ring
      have hm : roundHalfEven (w * 2 ^ 40) (b * 2 ^ e) = w / b * 2 ^ (40 - e) := by
        rw [hexact]
        exact roundHalfEven_exact _ _ hDpos
      have hv : w / b * 2 ^ (40 - e) * 2 ^ e = w / b * 2 ^ 40 := by
        rw [Nat.mul_assoc, ← Nat.pow_add]; congr 2; omega
      have hc : (w + b - 1) / b = w / b := by
        apply Nat.div_eq_of_lt_le
        · rw [Nat.mul_comm]; omega
        · rw [Nat.add_mul, Nat.mul_comm (w / b) b]; omega
      rw [hm, hv, hc]
      exact ceilFloat_integer _
    · -- the quotient is at least 1/b away from the integers around it
      have hrb : w % b < b := Nat.mod_lt w hb0
      have hc : (w + b - 1) / b = w / b + 1 := by
        apply Nat.div_eq_of_lt_le
        · rw [Nat.add_mul, Nat.mul_comm (w / b) b]; omega
        · rw [Nat.add_mul, Nat.add_mul, Nat.mul_comm (w / b) b]; omega
      rw [hc]
      apply ceilFloat_between
      · apply Nat.lt_of_mul_lt_mul_right (a := b)
        rw [hvb]
        have ht : w / b * 2 ^ 40 * b = b * (w / b) * 2 ^ 40 := by ring
        rw [ht]
        omega
      · apply Nat.lt_of_mul_lt_mul_right (a := b)
        rw [hvb]
        have ht : (w / b + 1) * 2 ^ 40 * b = b * (w / b) * 2 ^ 40 + b * 2 ^ 40 := by ring
        rw [ht]
        omega

/-- For widths below `2 ^ 24` and a non-zero `block_length` of 16 bits the
`float` computation of `n_blocks` is exact: it yields the ceiling of
`width / block_length`. -/
theorem nBlocks_exact (width block_length : Nat) (hw : width < 2 ^ 24)
    (hb0 : 0 < block_length) (hb : block_length < 2 ^ 16) :
    nBlocks width block_length = some ((width + block_length - 1) / block_length) := by
  have hle : (width + block_length - 1) / block_length ≤ width + block_length - 1 :=
    Nat.div_le_self _ _
  unfold nBlocks
  rw [if_neg (by omega), toFloat_small width hw, toFloat_small block_length (by omega),
    divFloat_ceil width block_length hw hb0 hb]
  simp only []
  rw [if_pos (by omega)]

/-! ## Block::operator() -/

/-- C11. Checked access on a block of size `n ≥ 1`: for every index `k`,
`operator()(k)` accesses index `min k (n - 1)`, which lies in `[0, n)`; it
yields the `k`-th sample when `k < n` and the last sample when `k ≥ n`, and
the access is never outside the buffer. -/
theorem callOp_clamps (b : Block) (k : Nat) (hn : 1 ≤ b.getSize) :
    b.checkedIndex k = min k (b.getSize - 1)
      ∧ b.checkedIndex k < b.getSize
      ∧ b.callOp k = b.index (min k (b.getSize - 1))
      ∧ (k < b.getSize → b.callOp k = b.index k)
      ∧ (b.getSize ≤ k → b.callOp k = b.index (b.getSize - 1))
      ∧ ∃ v, b.callOp k = some v := by
  have hidx : b.checkedIndex k = min k (b.getSize - 1) := by
    unfold Block.checkedIndex
    by_cases hk : k ≥ b.getSize
    · rw [if_pos hk, if_neg (by omega)]
      omega
    · rw [if_neg hk]
      omega
  have hlt : b.checkedIndex k < b.getSize := by
    rw [hidx]
    omega
  refine ⟨hidx, hlt, ?_, ?_, ?_, ?_⟩
  · unfold Block.callOp Block.index
    rw [hidx]
  · intro hk
    unfold Block.callOp Block.index
    rw [hidx, Nat.min_eq_left (by omega)]
  · intro hk
    unfold Block.callOp Block.index
    rw [hidx, Nat.min_eq_right (by omega)]
  · unfold Block.callOp
    unfold Block.getSize at hlt
    exact ⟨b.data[b.checkedIndex k], List.getElem?_eq_getElem hlt⟩

/-- C11, witness: on the block `[4, 5, 6]` the index 7 is clamped to 2 and
yields the last sample. -/
theorem callOp_clamps_witness :
    1 ≤ Block.getSize ⟨[4, 5, 6], 0⟩ ∧ Block.callOp ⟨[4, 5, 6], 0⟩ 7 = some 6 :=
  ⟨by decide, ((callOp_clamps ⟨[4, 5, 6], 0⟩ 7 (by decide)).2.2.1).trans (by decide)⟩

/-! ## Block::reverse: the first read -/

/-- C20. For a block of size `n ≥ 2` the loop of `Block::reverse` runs at
least once, and its first step (`i = 0`) reads the receiver at index
`n - 0 = n`, which is outside `[0, n)`: the read is out of bounds, whatever
the content of the result buffer, and so the call yields no block. -/
theorem reverse_first_read (u : Fresh) (b : Block) (hn : 2 ≤ b.getSize) :
    1 ≤ b.getSize / 2
      ∧ b.getSize - 0 = b.getSize
      ∧ b.index (b.getSize - 0) = none
      ∧ (∀ result, reverseLoop b.data b.getSize (b.getSize / 2) 0 result = none)
      ∧ Block.reverse u b = none := by
  have hsteps : 1 ≤ b.getSize / 2 := by omega
  have hread : b.data[b.getSize - 0]? = none := by
    unfold Block.getSize
    exact List.getElem?_eq_none (by omega)
  have hloop : ∀ result, reverseLoop b.data b.getSize (b.getSize / 2) 0 result = none := by
    intro result
    obtain ⟨k, hk⟩ : ∃ k, b.getSize / 2 = k + 1 := ⟨b.getSize / 2 - 1, by omega⟩
    rw [hk, reverseLoop, hread]
  refine ⟨hsteps, Nat.sub_zero _, hread, hloop, ?_⟩
  unfold Block.reverse
  simp only [hloop, Option.map_none']

/-- C20, witness: the block `[1, 2]`, of size 2. -/
theorem reverse_first_read_witness :
    2 ≤ Block.getSize ⟨[1, 2], 0⟩
      ∧ Block.index ⟨[1, 2], 0⟩ (Block.getSize ⟨[1, 2], 0⟩ - 0) = none
      ∧ Block.reverse ⟨fun _ => 0, 0⟩ ⟨[1, 2], 0⟩ = none :=
  ⟨by decide, (reverse_first_read ⟨fun _ => 0, 0⟩ ⟨[1, 2], 0⟩ (by decide)).2.2.1,
    (reverse_first_read ⟨fun _ => 0, 0⟩ ⟨[1, 2], 0⟩ (by decide)).2.2.2.2⟩

/-! ## compress: neither capping nor splitting -/

/-- C19. `compress` neither caps nor splits a long run: for a block of
length `L ≥ 1` whose samples are all within `err` of the first sample `v`,
the output is exactly the one pair `v, L mod 256`, the count being
accumulated as an integer and stored in one byte. -/
theorem compress_no_split (bl : Block) (err v : Nat) (h0 : bl.index 0 = some v)
    (_h1 : 1 ≤ bl.getSize) (h : ∀ c ∈ bl.data, within err c v) :
    compress bl err = some [v, bl.getSize % 256] := by
  have hstep := compressLoop_within err v bl.data 0 [] h
  unfold compress
  rw [h0]
  simp only [hstep, Block.getSize, List.nil_append, Nat.zero_add]

/-- C19, witness: an all-identical block of length 256 yields the count
byte 0. -/
theorem compress_no_split_witness :
    Block.index ⟨List.replicate 256 9, 0⟩ 0 = some 9
      ∧ 1 ≤ Block.getSize ⟨List.replicate 256 9, 0⟩
      ∧ compress ⟨List.replicate 256 9, 0⟩ 0 = some [9, 0] :=
  have hlen : Block.getSize ⟨List.replicate 256 9, 0⟩ = 256 := List.length_replicate 256 9
  have h0 : Block.index ⟨List.replicate 256 9, 0⟩ 0 = some 9 :=
    List.getElem?_replicate.trans (if_pos (by decide))
  have h1 : 1 ≤ Block.getSize ⟨List.replicate 256 9, 0⟩ := by rw [hlen]; decide
  ⟨h0, h1,
    (compress_no_split ⟨List.replicate 256 9, 0⟩ 0 9 h0 h1
      (fun c hc => by rw [List.eq_of_mem_replicate hc]; simp [within])).trans
      (by rw [hlen])⟩

/-! ## compress: the runs it emits -/

theorem compressLoop_apart (err : Nat) (xs : List Nat) (current count : Nat)
    (ps : List (Nat × Nat)) :
    ∃ c rest, compressLoop err xs current count (pairBytes ps)
          = pairBytes (ps ++ (current, c) :: rest)
      ∧ List.Chain' (fun p q : Nat × Nat => err < Int.natAbs ((q.1 : Int) - (p.1 : Int)))
          ((current, c) :: rest) := by
  induction xs generalizing current count ps with
  | nil =>
    refine ⟨count % 256, [], ?_, List.chain'_singleton _⟩
    simp [compressLoop, pairBytes_append, pairBytes]
  | cons x xs ih =>
    rw [compressLoop]
    by_cases hx : Int.natAbs ((x : Int) - (current : Int)) ≤ err
    · rw [if_pos hx]
      exact ih current (count + 1) ps
    · rw [if_neg hx]
      have hps : pairBytes ps ++ [current, count % 256]
          = pairBytes (ps ++ [(current, count % 256)]) := by
        simp [pairBytes_append, pairBytes]
      obtain ⟨c, rest, heq, hchain⟩ := ih x 1 (ps ++ [(current, count % 256)])
      refine ⟨count % 256, (x, c) :: rest, ?_, ?_⟩
      · rw [hps, heq, List.append_assoc]
        rfl
      · exact List.Chain'.cons (by simp only; omega) hchain

/-- C18. Runs are greedy-maximal: for a non-empty block and any tolerance
`err`, the output of `compress` is a non-empty sequence of pairs in which
the representative of each run after the first differs from the
representative of the run before it by more than `err`; at tolerance 0 no
two adjacent runs carry the same value. -/
theorem compress_adjacent_apart (bl : Block) (err : Nat) (h1 : 1 ≤ bl.getSize) :
    ∃ ps, compress bl err = some (pairBytes ps) ∧ ps ≠ []
      ∧ List.Chain' (fun p q : Nat × Nat => err < Int.natAbs ((q.1 : Int) - (p.1 : Int))) ps
      ∧ (err = 0 → List.Chain' (fun p q : Nat × Nat => p.1 ≠ q.1) ps) := by
  obtain ⟨data, m⟩ := bl
  cases data with
  | nil => simp [Block.getSize] at h1
  | cons x xs =>
    obtain ⟨c, rest, heq, hchain⟩ := compressLoop_apart err (x :: xs) x 0 []
    refine ⟨(x, c) :: rest, ?_, List.cons_ne_nil _ _, hchain, ?_⟩
    · simp only [compress, Block.index, List.getElem?_cons_zero]
      exact congrArg some heq
    · intro herr
      refine List.Chain'.imp ?_ hchain
      intro p q hpq heq2
      rw [herr, heq2] at hpq
      simp at hpq

/-- C18, witness: the block `[10, 10, 200, 200]` at tolerance 0 has a
non-empty output. -/
theorem compress_adjacent_apart_witness :
    1 ≤ Block.getSize ⟨[10, 10, 200, 200], 0⟩
      ∧ ∃ ps, compress ⟨[10, 10, 200, 200], 0⟩ 0 = some (pairBytes ps) ∧ ps ≠ [] :=
  ⟨by decide,
    (compress_adjacent_apart ⟨[10, 10, 200, 200], 0⟩ 0 (by decide)).imp
      (fun _ h => ⟨h.1, h.2.1⟩)⟩

theorem compressLoop_cover (err : Nat) (xs : List Nat) (current count : Nat)
    (ps : List (Nat × Nat)) (pend : List Nat) (hlen : pend.length = count)
    (hhead : pend[0]? = some current) (hpend : ∀ s ∈ pend, within err s current)
    (h255 : count + xs.length ≤ 255) :
    ∃ qs, compressLoop err xs current count (pairBytes ps) = pairBytes (ps ++ qs)
      ∧ runsCover err qs (pend ++ xs) := by
  induction xs generalizing current count ps pend with
  | nil =>
    have hpos : 1 ≤ count := by
      cases pend with
      | nil => simp at hhead
      | cons a as => simp at hlen; omega
    have hc : count % 256 = count := Nat.mod_eq_of_lt (by simp at h255; omega)
    refine ⟨[(current, count)], ?_, ?_⟩
    · simp [compressLoop, pairBytes_append, pairBytes, hc]
    · simp only [runsCover, List.append_nil]
      refine ⟨hpos, by omega, hhead, ?_, ?_⟩
      · intro s hs
        exact hpend s (List.mem_of_mem_take hs)
      · rw [← hlen, List.drop_length]
  | cons x xs ih =>
    simp only [List.length_cons] at h255
    rw [compressLoop]
    by_cases hx : Int.natAbs ((x : Int) - (current : Int)) ≤ err
    · rw [if_pos hx]
      obtain ⟨qs, heq, hcov⟩ := ih current (count + 1) ps (pend ++ [x])
        (by simp [hlen])
        (by
          cases pend with
          | nil => simp at hhead
          | cons a as => simpa using hhead)
        (by
          intro s hs
          rcases List.mem_append.mp hs with h | h
          · exact hpend s h
          · rw [List.mem_singleton.mp h]; exact hx)
        (by omega)
      refine ⟨qs, heq, ?_⟩
      simpa using hcov
    · rw [if_neg hx]
      have hpos : 1 ≤ count := by
        cases pend with
        | nil => simp at hhead
        | cons a as => simp at hlen; omega
      have hc : count % 256 = count := Nat.mod_eq_of_lt (by omega)
      have hps : pairBytes ps ++ [current, count % 256]
          = pairBytes (ps ++ [(current, count)]) := by
        simp [pairBytes_append, pairBytes, hc]
      obtain ⟨qs, heq, hcov⟩ := ih x 1 (ps ++ [(current, count)]) [x] rfl rfl
        (by intro s hs; rw [List.mem_singleton.mp hs]; simp [within])
        (by omega)
      refine ⟨(current, count) :: qs, ?_, ?_⟩
      · rw [hps, heq, List.append_assoc]
        rfl
      · simp only [runsCover]
        refine ⟨hpos, by simp; omega, ?_, ?_, ?_⟩
        · cases pend with
          | nil => simp at hhead
          | cons a as => simpa using hhead
        · intro s hs
          rw [← hlen, List.take_left] at hs
          exact hpend s hs
        · rw [← hlen, List.drop_left]
          exact hcov

theorem runStart_zero (ps : List (Nat × Nat)) : runStart ps 0 = 0 := by
  simp [runStart]

theorem runStart_succ (p : Nat × Nat) (ps : List (Nat × Nat)) (j : Nat) :
    runStart (p :: ps) (j + 1) = p.2 + runStart ps j := by
  simp [runStart]

theorem runsCover_index (err : Nat) (ps : List (Nat × Nat)) (data : List Nat)
    (hcov : runsCover err ps data) (j v c : Nat) (hj : ps[j]? = some (v, c)) :
    1 ≤ c ∧ data[runStart ps j]? = some v
      ∧ ∀ i, runStart ps j ≤ i → i < runStart ps j + c →
          ∃ s, data[i]? = some s ∧ within err s v := by
  induction ps generalizing data j with
  | nil => simp at hj
  | cons p ps ih =>
    obtain ⟨hpos, hle, hhead, hall, hrest⟩ := hcov
    cases j with
    | zero =>
      have hp : p = (v, c) := by simpa using hj
      subst hp
      rw [runStart_zero]
      refine ⟨hpos, hhead, ?_⟩
      intro i _ hi
      have hi1 : i < data.length := by simp only at hle; omega
      refine ⟨data[i], List.getElem?_eq_getElem hi1, hall _ ?_⟩
      rw [List.mem_take_iff_getElem]
      exact ⟨i, by simp only at hle ⊢; omega, rfl⟩
    | succ j =>
      have hj1 : ps[j]? = some (v, c) := by simpa using hj
      obtain ⟨h1, h2, h3⟩ := ih (data.drop p.2) hrest j hj1
      rw [runStart_succ]
      refine ⟨h1, ?_, ?_⟩
      · rw [← h2, List.getElem?_drop]
      · intro i hi1 hi2
        obtain ⟨s, hs, hw⟩ := h3 (i - p.2) (by omega) (by omega)
        refine ⟨s, ?_, hw⟩
        rw [← hs, List.getElem?_drop]
        congr 1
        omega

/-- C17. Runs are anchored to their first member and respect the tolerance:
for a block of length 1 to 255 and any tolerance `err`, the output of
`compress` is a sequence of pairs `(v, c)` such that, for the `j`-th of them,
`c ≥ 1`, `v` is the block sample at the index `runStart ps j` (the sum of the
counts of the runs before it), and every block sample at an index in
`[runStart ps j, runStart ps j + c)` exists and is within `err` of `v`. -/
theorem compress_runs_anchored (bl : Block) (err : Nat) (h1 : 1 ≤ bl.getSize)
    (h255 : bl.getSize ≤ 255) :
    ∃ ps, compress bl err = some (pairBytes ps)
      ∧ ∀ j v c, ps[j]? = some (v, c) →
          1 ≤ c ∧ bl.index (runStart ps j) = some v
            ∧ ∀ i, runStart ps j ≤ i → i < runStart ps j + c →
                ∃ s, bl.index i = some s ∧ within err s v := by
  obtain ⟨data, m⟩ := bl
  cases data with
  | nil => simp [Block.getSize] at h1
  | cons x xs =>
    simp only [Block.getSize, List.length_cons] at h255
    have hxx : Int.natAbs ((x : Int) - (x : Int)) ≤ err := by simp
    obtain ⟨qs, heq, hcov⟩ := compressLoop_cover err xs x 1 [] [x] rfl rfl
      (by intro s hs; rw [List.mem_singleton.mp hs]; simp [within]) (by omega)
    refine ⟨qs, ?_, ?_⟩
    · simp only [compress, Block.index, List.getElem?_cons_zero]
      rw [compressLoop, if_pos hxx]
      simpa [pairBytes] using heq
    · intro j v c hj
      exact runsCover_index err qs (x :: xs) hcov j v c hj

/-- C17, witness: the block `[5, 6, 9]` at tolerance 2. -/
theorem compress_runs_anchored_witness :
    1 ≤ Block.getSize ⟨[5, 6, 9], 0⟩ ∧ Block.getSize ⟨[5, 6, 9], 0⟩ ≤ 255
      ∧ ∃ ps, compress ⟨[5, 6, 9], 0⟩ 2 = some (pairBytes ps) :=
  ⟨by decide, by decide,
    (compress_runs_anchored ⟨[5, 6, 9], 0⟩ 2 (by decide) (by decide)).imp (fun _ h => h.1)⟩

/-! ## RLEImageWriter::setBlockDimension -/

theorem write_none_of_zero_block_length (wr : RLEImageWriter) (u : Fresh) (src : Image)
    (h : wr.block_length = 0) : wr.write u src = none := by
  have hn : nBlocks src.width wr.block_length = none := by
    unfold nBlocks
    rw [if_pos h]
  unfold RLEImageWriter.write
  rw [hn]

/-- C15. After `setBlockDimension(65536)` the stored `block_length` is 0, and
after `setBlockDimension(65537)` it is 1: the value `dim>2 ? dim : 2` is
narrowed to the `unsigned short` field after the clamp, so the stored value
is below the minimum 2 and differs from the argument. With `block_length`
0, `write` then divides by zero on every image and does not complete. -/
theorem setBlockDimension_below_minimum (u : Fresh) (src : Image) :
    (RLEImageWriter.create.setBlockDimension 65536).block_length = 0
      ∧ ¬ (2 ≤ (RLEImageWriter.create.setBlockDimension 65536).block_length)
      ∧ (RLEImageWriter.create.setBlockDimension 65537).block_length = 1
      ∧ nBlocks src.width (RLEImageWriter.create.setBlockDimension 65536).block_length = none
      ∧ (RLEImageWriter.create.setBlockDimension 65536).write u src = none := by
  have h0 : (RLEImageWriter.create.setBlockDimension 65536).block_length = 0 := by decide
  refine ⟨h0, by decide, by decide, ?_, write_none_of_zero_block_length _ u src h0⟩
  rw [h0]
  unfold nBlocks
  rw [if_pos rfl]

/-- For every argument `dim` that fits the 16-bit field (`dim < 2 ^ 16`),
after `setBlockDimension(dim)` the stored `block_length` is at least 2; it
equals `dim` when `dim > 2` and 2 otherwise. -/
theorem setBlockDimension_fits (wr : RLEImageWriter) (dim : Nat) (hdim : dim < 2 ^ 16) :
    2 ≤ (wr.setBlockDimension dim).block_length
      ∧ (2 < dim → (wr.setBlockDimension dim).block_length = dim)
      ∧ (dim ≤ 2 → (wr.setBlockDimension dim).block_length = 2) := by
  unfold RLEImageWriter.setBlockDimension
  simp only []
  by_cases h : dim > 2
  · rw [if_pos h, Nat.mod_eq_of_lt hdim]
    exact ⟨by omega, fun _ => rfl, fun h2 => by omega⟩
  · rw [if_neg h]
    exact ⟨by decide, fun h2 => by omega, fun _ => by decide⟩

/-! ## The header -/

theorem writeHeader_length (wr : RLEImageWriter) (src : Image) :
    (writeHeader wr src).length = 12 := by
  simp [writeHeader, shortBytes]

theorem readShort_shortBytes (pre : List Nat) (x : Nat) (rest : List Nat) :
    readShort (pre ++ shortBytes x ++ rest) pre.length = x % 2 ^ 16 := by
  have e0 : (pre ++ (x % 256 :: (x / 256) % 256 :: rest))[pre.length]? = some (x % 256) := by
    rw [List.getElem?_append_right (le_refl _), Nat.sub_self]
    rfl
  have e1 : (pre ++ (x % 256 :: (x / 256) % 256 :: rest))[pre.length + 1]?
      = some ((x / 256) % 256) := by
    have h1 : pre.length + 1 - pre.length = 1 := by omega
    rw [List.getElem?_append_right (by omega), h1]
    simp
  unfold readShort shortBytes
  rw [List.append_assoc, List.getD_eq_getElem?_getD, List.getD_eq_getElem?_getD]
  simp only [List.cons_append, List.nil_append, e0, e1, Option.getD_some]
  omega

theorem write_eq_header_append (wr : RLEImageWriter) (u : Fresh) (src : Image)
    (bytes : List Nat) (h : wr.write u src = some bytes) :
    ∃ payload, bytes = writeHeader wr src ++ payload := by
  unfold RLEImageWriter.write at h
  split at h
  · exact absurd h (by simp)
  · simp only [] at h
    split at h
    · rename_i r g b _ _ _
      refine ⟨r ++ g ++ b, ?_⟩
      simp only [Option.some.injEq] at h
      rw [← h]
      simp [List.append_assoc]
    · exact absurd h (by simp)

theorem header_fields (wr : RLEImageWriter) (src : Image) (payload : List Nat) :
    (writeHeader wr src ++ payload)[0]? = some 67
      ∧ (writeHeader wr src ++ payload)[1]? = some 80
      ∧ (writeHeader wr src ++ payload)[2]? = some 73
      ∧ (writeHeader wr src ++ payload)[3]? = some 2
      ∧ readShort (writeHeader wr src ++ payload) 4 = 258
      ∧ readShort (writeHeader wr src ++ payload) 6 = src.width % 2 ^ 16
      ∧ readShort (writeHeader wr src ++ payload) 8 = src.height % 2 ^ 16
      ∧ readShort (writeHeader wr src ++ payload) 10 = wr.block_length % 2 ^ 16 := by
  refine ⟨by simp [writeHeader], by simp [writeHeader], by simp [writeHeader],
    by simp [writeHeader], ?_, ?_, ?_, ?_⟩
  · have h := readShort_shortBytes [67, 80, 73, 2] 258
      (shortBytes (src.width % 2 ^ 16) ++ shortBytes (src.height % 2 ^ 16)
        ++ shortBytes wr.block_length ++ payload)
    simpa [writeHeader, List.append_assoc] using h
  · have h := readShort_shortBytes ([67, 80, 73, 2] ++ shortBytes 258) (src.width % 2 ^ 16)
      (shortBytes (src.height % 2 ^ 16) ++ shortBytes wr.block_length ++ payload)
    have hlen : ([67, 80, 73, 2] ++ shortBytes 258).length = 6 := rfl
    rw [hlen, Nat.mod_mod] at h
    simpa [writeHeader, List.append_assoc] using h
  · have h := readShort_shortBytes
      ([67, 80, 73, 2] ++ shortBytes 258 ++ shortBytes (src.width % 2 ^ 16))
      (src.height % 2 ^ 16) (shortBytes wr.block_length ++ payload)
    have hlen : ([67, 80, 73, 2] ++ shortBytes 258
        ++ shortBytes (src.width % 2 ^ 16)).length = 8 := rfl
    rw [hlen, Nat.mod_mod] at h
    simpa [writeHeader, List.append_assoc] using h
  · have h := readShort_shortBytes
      ([67, 80, 73, 2] ++ shortBytes 258 ++ shortBytes (src.width % 2 ^ 16)
        ++ shortBytes (src.height % 2 ^ 16))
      wr.block_length payload
    have hlen : ([67, 80, 73, 2] ++ shortBytes 258 ++ shortBytes (src.width % 2 ^ 16)
        ++ shortBytes (src.height % 2 ^ 16)).length = 10 := rfl
    rw [hlen] at h
    simpa [writeHeader, List.append_assoc] using h

theorem write_structure (wr : RLEImageWriter) (u : Fresh) (src : Image) (bytes : List Nat)
    (h : wr.write u src = some bytes) :
    ∃ n_blocks r g b, nBlocks src.width wr.block_length = some n_blocks
      ∧ writeRows u src 0 wr.block_length wr.threshold n_blocks
          (bLast src.width n_blocks wr.block_length) src.height 0 = some r
      ∧ writeRows u src 1 wr.block_length wr.threshold n_blocks
          (bLast src.width n_blocks wr.block_length) src.height 0 = some g
      ∧ writeRows u src 2 wr.block_length wr.threshold n_blocks
          (bLast src.width n_blocks wr.block_length) src.height 0 = some b
      ∧ bytes = writeHeader wr src ++ (r ++ (g ++ b)) := by
  unfold RLEImageWriter.write at h
  split at h
  · exact absurd h (by simp)
  · rename_i n_blocks hn
    simp only [] at h
    split at h
    · rename_i r g b hr hg hb
      refine ⟨n_blocks, r, g, b, hn, hr, hg, hb, ?_⟩
      simp only [Option.some.injEq] at h
      rw [← h]
      simp [List.append_assoc]
    · exact absurd h (by simp)

/-- C13. Whenever `RLEImageWriter::write` completes, the bytes it emitted
begin with the header fields at these offsets: bytes 0..2 are `'C'` (67),
`'P'` (80), `'I'` (73); byte 3 is 2; the little-endian 16-bit field at offset
4 is 258, at offset 6 the image width modulo `2 ^ 16`, at offset 8 the image
height modulo `2 ^ 16`, at offset 10 the writer's `block_length` (itself a
16-bit field). -/
theorem write_header_fields (wr : RLEImageWriter) (u : Fresh) (src : Image)
    (bytes : List Nat) (h : wr.write u src = some bytes) :
    bytes[0]? = some 67 ∧ bytes[1]? = some 80 ∧ bytes[2]? = some 73 ∧ bytes[3]? = some 2
      ∧ readShort bytes 4 = 258
      ∧ readShort bytes 6 = src.width % 2 ^ 16
      ∧ readShort bytes 8 = src.height % 2 ^ 16
      ∧ readShort bytes 10 = wr.block_length % 2 ^ 16
      ∧ (wr.block_length < 2 ^ 16 → readShort bytes 10 = wr.block_length) := by
  obtain ⟨payload, hp⟩ := write_eq_header_append wr u src bytes h
  obtain ⟨h0, h1, h2, h3, h4, h6, h8, h10⟩ := header_fields wr src payload
  rw [hp]
  refine ⟨h0, h1, h2, h3, h4, h6, h8, h10, ?_⟩
  intro hb
  rw [h10, Nat.mod_eq_of_lt hb]

/-- C13, witness: the default writer on a 2×1 image. -/
theorem write_header_fields_witness :
    RLEImageWriter.write RLEImageWriter.create ⟨fun _ => 0, 0⟩ ⟨2, 1, [1, 1, 2, 3, 4, 4]⟩
        = some [67, 80, 73, 2, 2, 1, 2, 0, 1, 0, 32, 0, 1, 2, 2, 1, 3, 1, 4, 2]
      ∧ readShort [67, 80, 73, 2, 2, 1, 2, 0, 1, 0, 32, 0, 1, 2, 2, 1, 3, 1, 4, 2] 10 = 32 :=
  ⟨by decide,
    (write_header_fields RLEImageWriter.create ⟨fun _ => 0, 0⟩ ⟨2, 1, [1, 1, 2, 3, 4, 4]⟩
      [67, 80, 73, 2, 2, 1, 2, 0, 1, 0, 32, 0, 1, 2, 2, 1, 3, 1, 4, 2]
      (by decide)).2.2.2.2.2.2.2.2 (by decide)⟩

/-! ## RLEImageReader::read: the header -/

theorem read_null_of_mismatch (init : Nat → Nat) (file : List Nat) (hlen : 6 ≤ file.length)
    (hbad : ¬ (file.getD 0 0 = 67 ∧ file.getD 1 0 = 80 ∧ file.getD 2 0 = 73
      ∧ file.getD 3 0 = 2 ∧ readShort file 4 = 258)) :
    RLEImageReader.read init file = Ret.null := by
  unfold RLEImageReader.read
  rw [if_neg (by omega), if_pos hbad]

theorem read_val (init : Nat → Nat) (file : List Nat) (hlen : 12 ≤ file.length)
    (hmagic : file.getD 0 0 = 67 ∧ file.getD 1 0 = 80 ∧ file.getD 2 0 = 73
      ∧ file.getD 3 0 = 2 ∧ readShort file 4 = 258)
    (hsize : readShort file 6 * readShort file 8 * 3 < 2 ^ 31) :
    RLEImageReader.read init file
      = Ret.val ⟨readShort file 6, readShort file 8,
          decode ((file.drop 12).take ((file.length - 12) % 2 ^ 32))
            (readShort file 6 * readShort file 8 * 3)
            ((List.range (readShort file 6 * readShort file 8 * 3)).map init)⟩ := by
  unfold RLEImageReader.read
  rw [if_neg (by omega), if_neg (not_not.mpr hmagic), if_neg (by omega)]
  simp only []
  rw [if_neg (by omega)]

/-- C12. The 12-byte file `CPI`, 2, tag 258, width 32768, height 32768,
block length 32 has a matching magic, version and tag, and yet no image is
returned: `w * h * 3` is computed in `int` and overflows. -/
theorem read_size_overflow (init : Nat → Nat) :
    RLEImageReader.read init [67, 80, 73, 2, 2, 1, 0, 128, 0, 128, 32, 0] = Ret.fault
      ∧ readShort [67, 80, 73, 2, 2, 1, 0, 128, 0, 128, 32, 0] 4 = 258
      ∧ readShort [67, 80, 73, 2, 2, 1, 0, 128, 0, 128, 32, 0] 6 = 32768
      ∧ readShort [67, 80, 73, 2, 2, 1, 0, 128, 0, 128, 32, 0] 8 = 32768
      ∧ ¬ (32768 * 32768 * 3 < 2 ^ 31) := by
  refine ⟨?_, by decide, by decide, by decide, by decide⟩
  unfold RLEImageReader.read
  rw [if_neg (by decide), if_neg (by decide), if_neg (by decide)]
  simp only []
  rw [if_pos (by decide)]

/-- C14, counterexample: the header the default writer emits for a 1×1
image is not 11 bytes long. -/
theorem header_not_eleven :
    ¬ ((writeHeader RLEImageWriter.create ⟨1, 1, [5, 6, 7]⟩).length = 11) := by
  decide

/-- C14, amended. The header `RLEImageWriter::write` emits is a fixed 12
bytes long for every image: the bytes of a completed `write` are the header
followed by the payload, so the first run pair of the payload is at byte
offset 12. On a file of at least 12 bytes whose magic, version and tag
match and whose `w * h * 3` fits an `int`, the reader decodes the bytes that
follow the first 12, `file_size - 12` of them (held in an `unsigned int`). -/
theorem header_twelve_bytes (wr : RLEImageWriter) (u : Fresh) (src : Image)
    (bytes : List Nat) (init : Nat → Nat) (file : List Nat)
    (hwrite : wr.write u src = some bytes) (hlen : 12 ≤ file.length)
    (hmagic : file.getD 0 0 = 67 ∧ file.getD 1 0 = 80 ∧ file.getD 2 0 = 73
      ∧ file.getD 3 0 = 2 ∧ readShort file 4 = 258)
    (hsize : readShort file 6 * readShort file 8 * 3 < 2 ^ 31) :
    (writeHeader wr src).length = 12
      ∧ bytes.take 12 = writeHeader wr src
      ∧ (∃ n_blocks r g b, nBlocks src.width wr.block_length = some n_blocks
          ∧ writeRows u src 0 wr.block_length wr.threshold n_blocks
              (bLast src.width n_blocks wr.block_length) src.height 0 = some r
          ∧ writeRows u src 1 wr.block_length wr.threshold n_blocks
              (bLast src.width n_blocks wr.block_length) src.height 0 = some g
          ∧ writeRows u src 2 wr.block_length wr.threshold n_blocks
              (bLast src.width n_blocks wr.block_length) src.height 0 = some b
          ∧ bytes.drop 12 = r ++ (g ++ b))
      ∧ RLEImageReader.read init file
          = Ret.val ⟨readShort file 6, readShort file 8,
              decode ((file.drop 12).take ((file.length - 12) % 2 ^ 32))
                (readShort file 6 * readShort file 8 * 3)
                ((List.range (readShort file 6 * readShort file 8 * 3)).map init)⟩
      ∧ ((file.drop 12).take ((file.length - 12) % 2 ^ 32)).length
          = (file.length - 12) % 2 ^ 32 := by
  obtain ⟨n_blocks, r, g, b, hn, hr, hg, hb, hbytes⟩ := write_structure wr u src bytes hwrite
  have hl := writeHeader_length wr src
  refine ⟨hl, ?_, ⟨n_blocks, r, g, b, hn, hr, hg, hb, ?_⟩, read_val init file hlen hmagic hsize, ?_⟩
  · rw [hbytes, List.take_left' hl]
  · rw [hbytes, List.drop_left' hl]
  · rw [List.length_take, List.length_drop]
    exact Nat.min_eq_left (Nat.mod_le _ _)

/-- C14, witness: the default writer on a 1×1 image, and the file it
produces read back. -/
theorem header_twelve_bytes_witness :
    RLEImageWriter.write RLEImageWriter.create ⟨fun _ => 0, 0⟩ ⟨1, 1, [5, 6, 7]⟩
        = some [67, 80, 73, 2, 2, 1, 1, 0, 1, 0, 32, 0, 5, 1, 6, 1, 7, 1]
      ∧ List.take 12 [67, 80, 73, 2, 2, 1, 1, 0, 1, 0, 32, 0, 5, 1, 6, 1, 7, 1]
        = writeHeader RLEImageWriter.create ⟨1, 1, [5, 6, 7]⟩
      ∧ RLEImageReader.read (fun _ => 0)
          [67, 80, 73, 2, 2, 1, 1, 0, 1, 0, 32, 0, 5, 1, 6, 1, 7, 1]
        = Ret.val ⟨1, 1, [5, 6, 7]⟩ :=
  have h := header_twelve_bytes RLEImageWriter.create ⟨fun _ => 0, 0⟩ ⟨1, 1, [5, 6, 7]⟩
    [67, 80, 73, 2, 2, 1, 1, 0, 1, 0, 32, 0, 5, 1, 6, 1, 7, 1] (fun _ => 0)
    [67, 80, 73, 2, 2, 1, 1, 0, 1, 0, 32, 0, 5, 1, 6, 1, 7, 1]
    (by decide) (by decide) (by decide) (by decide)
  ⟨by decide, h.2.1, h.2.2.2.1.trans (by decide)⟩

/-! ## Row segmentation in RLEImageWriter::write -/

theorem fullBlockRequests_eq (block_length k x : Nat) :
    fullBlockRequests block_length k x
      = ((List.range k).map (fun i => (x + i * block_length, block_length)),
          x + k * block_length) := by
  induction k generalizing x with
  | zero => simp [fullBlockRequests]
  | succ k ih =>
    rw [fullBlockRequests, ih (x + block_length), List.range_succ_eq_map]
    simp only [List.map_cons, List.map_map, Nat.zero_mul, Nat.add_zero, Prod.mk.injEq,
      List.cons.injEq, true_and]
    refine ⟨?_, by ring⟩
    apply List.map_congr_left
    intro i _
    simp only [Function.comp, Prod.mk.injEq, and_true, Nat.succ_eq_add_one]
    ring

theorem writeFullBlocks_eq_requests (u : Fresh) (src : Image)
    (chanel y block_length threshold k x : Nat) :
    writeFullBlocks u src chanel y block_length threshold k x
      = (writeRequests u src chanel y threshold (fullBlockRequests block_length k x).1).map
          (fun bytes => (bytes, (fullBlockRequests block_length k x).2)) := by
  induction k generalizing x with
  | zero => simp [writeFullBlocks, fullBlockRequests, writeRequests]
  | succ k ih =>
    rw [writeFullBlocks, ih (x + block_length), fullBlockRequests, writeRequests]
    cases writeBlock u src chanel (x, y) block_length threshold with
    | none => rfl
    | some bytes =>
      cases writeRequests u src chanel y threshold
          (fullBlockRequests block_length k (x + block_length)).1 with
      | none => rfl
      | some rest => rfl

theorem writeRequests_concat (u : Fresh) (src : Image) (chanel y threshold : Nat)
    (rs : List (Nat × Nat)) (r : Nat × Nat) :
    writeRequests u src chanel y threshold (rs ++ [r])
      = match writeRequests u src chanel y threshold rs,
            writeBlock u src chanel (r.1, y) r.2 threshold with
        | some bytes, some last => some (bytes ++ last)
        | _, _ => none := by
  induction rs with
  | nil =>
    simp only [List.nil_append, writeRequests]
    cases writeBlock u src chanel (r.1, y) r.2 threshold <;> simp
  | cons q qs ih =>
    rw [List.cons_append, writeRequests, ih, writeRequests]
    cases writeBlock u src chanel (q.1, y) q.2 threshold <;>
      cases writeRequests u src chanel y threshold qs <;>
      cases writeBlock u src chanel (r.1, y) r.2 threshold <;> simp

/-- The bytes `write` emits for one row are those of the requests of
`rowRequests`, in order: `rowRequests` lists the calls of
`Block::copyFromImage` that the row loop makes. -/
theorem writeRow_eq_requests (u : Fresh) (src : Image)
    (chanel y block_length threshold n_blocks : Nat) (b_last : Int) :
    writeRow u src chanel y block_length threshold n_blocks b_last
      = writeRequests u src chanel y threshold (rowRequests block_length n_blocks b_last) := by
  unfold writeRow rowRequests
  rw [writeRequests_concat, writeFullBlocks_eq_requests]
  cases writeRequests u src chanel y threshold
      (fullBlockRequests block_length (n_blocks - 1) 0).1 with
  | none => rfl
  | some bytes =>
    simp only [Option.map_some']
    cases writeBlock u src chanel ((fullBlockRequests block_length (n_blocks - 1) 0).2, y)
      (toSizeT b_last) threshold <;> rfl

theorem rowRequests_eq (block_length n_blocks : Nat) (b_last : Int) :
    rowRequests block_length n_blocks b_last
      = (List.range (n_blocks - 1)).map (fun k => (k * block_length, block_length))
          ++ [((n_blocks - 1) * block_length, toSizeT b_last)] := by
  unfold rowRequests
  rw [fullBlockRequests_eq]
  simp

theorem toSizeT_natCast (n : Nat) (h : n < 2 ^ 64) : toSizeT (n : Int) = n := by
  unfold toSizeT
  have h1 : ((n : Int) % 2 ^ 64) = (n : Int) := by
    apply Int.emod_eq_of_lt
    · omega
    · have : ((2 : Int) ^ 64) = ((2 ^ 64 : Nat) : Int) := by norm_num
      rw [this]
      exact Int.ofNat_lt.mpr h
  rw [h1, Int.toNat_natCast]

/-- Row segmentation for a width below `2 ^ 24`: with
`n = ceil(width / block_length)` blocks, block `k` is requested at
`x = k * block_length`, the first `n - 1` requests have length
`block_length`, the last has length `width - (n - 1) * block_length`, which
lies in `[1, block_length]`, and the lengths sum to `width`. -/
theorem segmentation_exact (width block_length : Nat) (hw1 : 1 ≤ width)
    (hw : width < 2 ^ 24) (hb1 : 1 ≤ block_length) (hb : block_length < 2 ^ 16) :
    ∃ n, nBlocks width block_length = some n
      ∧ n = (width + block_length - 1) / block_length
      ∧ 1 ≤ n
      ∧ rowRequests block_length n (bLast width n block_length)
          = (List.range (n - 1)).map (fun k => (k * block_length, block_length))
              ++ [((n - 1) * block_length, width - (n - 1) * block_length)]
      ∧ 1 ≤ width - (n - 1) * block_length
      ∧ width - (n - 1) * block_length ≤ block_length
      ∧ ((rowRequests block_length n (bLast width n block_length)).map Prod.snd).sum
          = width := by
  have hn := nBlocks_exact width block_length hw hb1 hb
  obtain ⟨n, hndef⟩ : ∃ n, n = (width + block_length - 1) / block_length := ⟨_, rfl⟩
  rw [← hndef] at hn
  have hsplit : block_length * ((width + block_length - 1) / block_length)
      + (width + block_length - 1) % block_length = width + block_length - 1 :=
    Nat.div_add_mod _ _
  have hmod : (width + block_length - 1) % block_length < block_length :=
    Nat.mod_lt _ hb1
  rw [← hndef] at hsplit
  have hn1 : 1 ≤ n := by
    rw [hndef]
    exact (Nat.one_le_div_iff hb1).mpr (by omega)
  have hmul : block_length * n = (n - 1) * block_length + block_length := by
    obtain ⟨m, rfl⟩ : ∃ m, n = m + 1 := ⟨n - 1, by omega⟩
    simp only [Nat.add_sub_cancel]
    ring
  have hlo : (n - 1) * block_length < width := by omega
  have hhi : width ≤ (n - 1) * block_length + block_length := by omega
  have hlast : toSizeT (bLast width n block_length) = width - (n - 1) * block_length := by
    have hcast : bLast width n block_length
        = ((width - (n - 1) * block_length : Nat) : Int) := by
      unfold bLast
      rw [Nat.cast_sub (le_of_lt hlo), Nat.cast_mul, Nat.cast_sub hn1]
      simp
    rw [hcast]
    exact toSizeT_natCast _ (by omega)
  have hreq := rowRequests_eq block_length n (bLast width n block_length)
  rw [hlast] at hreq
  refine ⟨n, hn, hndef, hn1, hreq, by omega, by omega, ?_⟩
  rw [hreq]
  simp only [List.map_append, List.map_map, List.map_cons, List.map_nil, List.sum_append,
    List.sum_cons, List.sum_nil, Nat.add_zero]
  have hconst : (List.map (Prod.snd ∘ fun k => (k * block_length, block_length))
      (List.range (n - 1))).sum = (n - 1) * block_length := by
    have : (Prod.snd ∘ fun k : Nat => (k * block_length, block_length))
        = fun _ => block_length := rfl
    rw [this, List.map_const', List.sum_replicate, List.length_range]
    rfl
  rw [hconst]
  omega

/-- C16. For the width `2 ^ 24 + 1 = 16777217` and the default block length
32 the `float` division loses the last bit of the width: `write` computes
`n_blocks = 524288` where `ceil(width / block_length)` is 524289, and the
last block of each row is requested at `x = 16777184` with length 33, which
is outside `[1, block_length]`. -/
theorem segmentation_large_width :
    nBlocks 16777217 32 = some 524288
      ∧ (16777217 + 32 - 1) / 32 = 524289
      ∧ bLast 16777217 524288 32 = 33
      ∧ (rowRequests 32 524288 (bLast 16777217 524288 32)).getLast?
          = some (16777184, 33) := by
  refine ⟨by decide, by decide, by decide, ?_⟩
  rw [rowRequests_eq, List.getLast?_append]
  have h1 : bLast 16777217 524288 32 = 33 := by decide
  have h2 : toSizeT 33 = 33 := by decide
  rw [h1, h2]
  rfl

/-! ## The payload of RLEImageWriter::write, block by block -/

theorem concatAll_append (xs ys : List (Option (List Nat))) :
    concatAll (xs ++ ys)
      = match concatAll xs, concatAll ys with
        | some a, some b => some (a ++ b)
        | _, _ => none := by
  induction xs with
  | nil =>
    simp only [List.nil_append, concatAll]
    cases concatAll ys <;> rfl
  | cons o os ih =>
    cases o with
    | none =>
      rw [List.cons_append, concatAll, concatAll]
    | some bytes =>
      rw [List.cons_append, concatAll, concatAll, ih]
      cases concatAll os <;> cases concatAll ys <;> simp

theorem writeRequests_eq_concatAll (u : Fresh) (src : Image) (chanel y threshold : Nat)
    (rs : List (Nat × Nat)) :
    writeRequests u src chanel y threshold rs
      = concatAll (rs.map (compressBlockAt u src threshold chanel y)) := by
  induction rs with
  | nil => rfl
  | cons r rs ih =>
    have hb : writeBlock u src chanel (r.1, y) r.2 threshold
        = compressBlockAt u src threshold chanel y r := rfl
    rw [writeRequests, ih, List.map_cons, hb]
    cases compressBlockAt u src threshold chanel y r with
    | none => simp [concatAll]
    | some bytes =>
      simp only [concatAll]
      cases concatAll (rs.map (compressBlockAt u src threshold chanel y)) <;> rfl

theorem rowBlocks_eq_rowRequests (block_length n_blocks : Nat) (b_last : Int) :
    rowBlocks block_length n_blocks b_last = rowRequests block_length n_blocks b_last :=
  (rowRequests_eq block_length n_blocks b_last).symm

theorem writeRow_eq_concatAll (u : Fresh) (src : Image)
    (chanel y block_length threshold n_blocks : Nat) (b_last : Int) :
    writeRow u src chanel y block_length threshold n_blocks b_last
      = concatAll ((rowBlocks block_length n_blocks b_last).map
          (compressBlockAt u src threshold chanel y)) := by
  rw [writeRow_eq_requests, writeRequests_eq_concatAll, rowBlocks_eq_rowRequests]

theorem writeRows_eq_concatAll (u : Fresh) (src : Image)
    (chanel block_length threshold n_blocks : Nat) (b_last : Int) (fuel y : Nat)
    (hfuel : y + fuel = src.height) :
    writeRows u src chanel block_length threshold n_blocks b_last fuel y
      = concatAll ((List.range' y fuel).flatMap fun y1 =>
          (rowBlocks block_length n_blocks b_last).map fun r =>
            compressBlockAt u src threshold chanel y1 r) := by
  induction fuel generalizing y with
  | zero => rfl
  | succ fuel ih =>
    have hy : y < src.height := by omega
    rw [writeRows, if_pos hy, ih (y + 1) (by omega), writeRow_eq_concatAll, List.range'_succ,
      List.flatMap_cons, concatAll_append]

theorem writeRows_all_eq_concatAll (u : Fresh) (src : Image)
    (chanel block_length threshold n_blocks : Nat) (b_last : Int) :
    writeRows u src chanel block_length threshold n_blocks b_last src.height 0
      = concatAll ((List.range src.height).flatMap fun y =>
          (rowBlocks block_length n_blocks b_last).map fun r =>
            compressBlockAt u src threshold chanel y r) := by
  rw [writeRows_eq_concatAll u src chanel block_length threshold n_blocks b_last src.height 0
    (Nat.zero_add _), List.range_eq_range']

theorem write_eq_payloadByBlocks (wr : RLEImageWriter) (u : Fresh) (src : Image) :
    wr.write u src
      = match nBlocks src.width wr.block_length with
        | none => none
        | some n_blocks =>
          (payloadByBlocks u src wr.block_length wr.threshold n_blocks
            (bLast src.width n_blocks wr.block_length)).map
              (fun payload => writeHeader wr src ++ payload) := by
  unfold RLEImageWriter.write
  cases nBlocks src.width wr.block_length with
  | none => rfl
  | some n_blocks =>
    have h3 : List.range 3 = [0, 1, 2] := rfl
    simp only [payloadByBlocks, h3, List.flatMap_cons, List.flatMap_nil, List.append_nil,
      concatAll_append, writeRows_all_eq_concatAll]
    cases concatAll ((List.range src.height).flatMap fun y =>
        (rowBlocks wr.block_length n_blocks (bLast src.width n_blocks wr.block_length)).map
          fun r => compressBlockAt u src wr.threshold 0 y r) <;>
      cases concatAll ((List.range src.height).flatMap fun y =>
        (rowBlocks wr.block_length n_blocks (bLast src.width n_blocks wr.block_length)).map
          fun r => compressBlockAt u src wr.threshold 1 y r) <;>
      cases concatAll ((List.range src.height).flatMap fun y =>
        (rowBlocks wr.block_length n_blocks (bLast src.width n_blocks wr.block_length)).map
          fun r => compressBlockAt u src wr.threshold 2 y r) <;>
      simp [List.append_assoc]

theorem compressBlockAt_some (u : Fresh) (src : Image) (threshold c y : Nat) (r : Nat × Nat)
    (out : List Nat) (h : compressBlockAt u src threshold c y r = some out) :
    ∃ b, Block.copyFromImage u src c (r.1, y) r.2 = Ret.val b ∧ compress b threshold = some out := by
  unfold compressBlockAt at h
  split at h
  · rename_i b hb
    exact ⟨b, hb, h⟩
  · exact absurd h (by simp)

theorem runsCover_nonempty (err : Nat) (ps : List (Nat × Nat)) (data : List Nat)
    (hcov : runsCover err ps data) (hdata : data ≠ []) : ps ≠ [] := by
  intro hps
  subst hps
  exact hdata hcov

theorem compress_runs (b : Block) (err : Nat) (out : List Nat)
    (h : compress b err = some out) :
    ∃ ps, out = pairBytes ps ∧ ps ≠ [] ∧ (b.getSize ≤ 255 → runsCover err ps b.data) := by
  obtain ⟨data, m⟩ := b
  cases data with
  | nil => simp [compress, Block.index] at h
  | cons x xs =>
    simp only [compress, Block.index, List.getElem?_cons_zero, Option.some.injEq] at h
    by_cases hsize : (Block.mk (x :: xs) m).getSize ≤ 255
    · have hxx : Int.natAbs ((x : Int) - (x : Int)) ≤ err := by simp
      have h255 : 1 + xs.length ≤ 255 := by
        simp only [Block.getSize, List.length_cons] at hsize
        omega
      obtain ⟨qs, heq, hcov⟩ := compressLoop_cover err xs x 1 [] [x] rfl rfl
        (by intro s hs; rw [List.mem_singleton.mp hs]; simp [within]) h255
      refine ⟨qs, ?_, runsCover_nonempty err qs _ hcov (by simp), fun _ => hcov⟩
      rw [← h, compressLoop, if_pos hxx]
      simpa [pairBytes] using heq
    · obtain ⟨c, rest, heq, _⟩ := compressLoop_apart err (x :: xs) x 0 []
      refine ⟨(x, c) :: rest, ?_, List.cons_ne_nil _ _, fun hle => absurd hle hsize⟩
      rw [← h]
      simpa [pairBytes] using heq

theorem concatAll_runs (f : Nat × Nat → Option (List Nat))
    (hf : ∀ r out, f r = some out → ∃ ps, out = pairBytes ps ∧ ps ≠ [])
    (rs : List (Nat × Nat)) (row : List Nat) (h : concatAll (rs.map f) = some row) :
    ∃ ps, row = pairBytes ps ∧ rs.length ≤ ps.length := by
  induction rs generalizing row with
  | nil =>
    simp only [List.map_nil, concatAll, Option.some.injEq] at h
    exact ⟨[], by rw [← h]; rfl, le_refl _⟩
  | cons r rs ih =>
    rw [List.map_cons] at h
    cases hr : f r with
    | none =>
      rw [hr, concatAll] at h
      exact absurd h (by simp)
    | some out =>
      rw [hr, concatAll] at h
      cases hrest : concatAll (rs.map f) with
      | none =>
        rw [hrest] at h
        exact absurd h (by simp)
      | some rest =>
        rw [hrest] at h
        simp only [Option.map_some', Option.some.injEq] at h
        obtain ⟨ps, hps, hne⟩ := hf r out hr
        obtain ⟨qs, hqs, hlen⟩ := ih rest hrest
        refine ⟨ps ++ qs, ?_, ?_⟩
        · rw [← h, hps, hqs, pairBytes_append]
        · have hpos : 1 ≤ ps.length := by
            cases ps with
            | nil => exact absurd rfl hne
            | cons p ps => simp
          simp only [List.length_cons, List.length_append]
          omega

theorem rowBlocks_length (block_length n_blocks : Nat) (b_last : Int) :
    n_blocks ≤ (rowBlocks block_length n_blocks b_last).length := by
  simp only [rowBlocks, List.length_append, List.length_map, List.length_range,
    List.length_singleton]
  omega

/-- C22. Compression state does not carry across block boundaries. For
every image and configuration, `write` emits the header followed by
`payloadByBlocks`: the concatenation, over the channels RED, GREEN, BLUE, the
rows top to bottom and the blocks of a row left to right, of `compress`
applied to each block on its own (and it fails exactly when one of these
fails). Each block's output is a non-empty sequence of runs computed from
that block alone, which for a block of at most 255 samples covers exactly
that block's samples; hence a row of `n_blocks` blocks produces at least
`n_blocks` runs, whatever its samples. -/
theorem write_blockwise (wr : RLEImageWriter) (u : Fresh) (src : Image) :
    (wr.write u src
        = match nBlocks src.width wr.block_length with
          | none => none
          | some n_blocks =>
            (payloadByBlocks u src wr.block_length wr.threshold n_blocks
              (bLast src.width n_blocks wr.block_length)).map
                (fun payload => writeHeader wr src ++ payload))
      ∧ (∀ c y r out, compressBlockAt u src wr.threshold c y r = some out →
          ∃ b ps, Block.copyFromImage u src c (r.1, y) r.2 = Ret.val b
            ∧ compress b wr.threshold = some out
            ∧ out = pairBytes ps ∧ ps ≠ []
            ∧ (b.getSize ≤ 255 → runsCover wr.threshold ps b.data))
      ∧ (∀ n_blocks b_last c y row,
          concatAll ((rowBlocks wr.block_length n_blocks b_last).map
              (compressBlockAt u src wr.threshold c y)) = some row →
          ∃ ps, row = pairBytes ps ∧ n_blocks ≤ ps.length) := by
  refine ⟨write_eq_payloadByBlocks wr u src, ?_, ?_⟩
  · intro c y r out h
    obtain ⟨b, hb, hc⟩ := compressBlockAt_some u src wr.threshold c y r out h
    obtain ⟨ps, hps, hne, hcov⟩ := compress_runs b wr.threshold out hc
    exact ⟨b, ps, hb, hc, hps, hne, hcov⟩
  · intro n_blocks b_last c y row h
    obtain ⟨ps, hps, hlen⟩ := concatAll_runs (compressBlockAt u src wr.threshold c y)
      (fun r out hr => by
        obtain ⟨b, _, hc⟩ := compressBlockAt_some u src wr.threshold c y r out hr
        obtain ⟨ps, hps, hne, _⟩ := compress_runs b wr.threshold out hc
        exact ⟨ps, hps, hne⟩)
      (rowBlocks wr.block_length n_blocks b_last) row h
    exact ⟨ps, hps, le_trans (rowBlocks_length _ _ _) hlen⟩

/-- C22, witness: a 4×1 image whose samples are all 7, written with block
length 2: each row of 2 blocks yields the 2 runs `(7, 2), (7, 2)`. -/
theorem write_blockwise_witness :
    RLEImageWriter.write (RLEImageWriter.create.setBlockDimension 2) ⟨fun _ => 0, 0⟩
        ⟨4, 1, [7, 7, 7, 7, 7, 7, 7, 7, 7, 7, 7, 7]⟩
      = some [67, 80, 73, 2, 2, 1, 4, 0, 1, 0, 2, 0, 7, 2, 7, 2, 7, 2, 7, 2, 7, 2, 7, 2] :=
  (write_blockwise (RLEImageWriter.create.setBlockDimension 2) ⟨fun _ => 0, 0⟩
    ⟨4, 1, [7, 7, 7, 7, 7, 7, 7, 7, 7, 7, 7, 7]⟩).1.trans (by decide)

/-! ## The extraction requests of RLEImageWriter::write -/

theorem writeRequests_concat_none (u : Fresh) (src : Image) (chanel y threshold : Nat)
    (rs : List (Nat × Nat)) (r : Nat × Nat)
    (h : writeBlock u src chanel (r.1, y) r.2 threshold = none) :
    writeRequests u src chanel y threshold (rs ++ [r]) = none := by
  rw [writeRequests_concat, h]
  cases writeRequests u src chanel y threshold rs <;> rfl

theorem writeRow_none_of_last (u : Fresh) (src : Image)
    (chanel y block_length threshold n_blocks : Nat) (b_last : Int)
    (h : writeBlock u src chanel ((n_blocks - 1) * block_length, y) (toSizeT b_last) threshold
      = none) :
    writeRow u src chanel y block_length threshold n_blocks b_last = none := by
  rw [writeRow_eq_requests, rowRequests_eq]
  exact writeRequests_concat_none u src chanel y threshold _ _ h

theorem write_none_of_row (wr : RLEImageWriter) (u : Fresh) (src : Image) (n_blocks : Nat)
    (hn : nBlocks src.width wr.block_length = some n_blocks) (hh : 0 < src.height)
    (hrow : writeRow u src 0 0 wr.block_length wr.threshold n_blocks
      (bLast src.width n_blocks wr.block_length) = none) :
    wr.write u src = none := by
  have hrows : writeRows u src 0 wr.block_length wr.threshold n_blocks
      (bLast src.width n_blocks wr.block_length) src.height 0 = none := by
    obtain ⟨k, hk⟩ : ∃ k, src.height = k + 1 := ⟨src.height - 1, by omega⟩
    rw [hk, writeRows, if_pos (by omega), hrow]
  unfold RLEImageWriter.write
  rw [hn]
  simp only [hrows]

theorem writeBlock_none_of_size_zero (u : Fresh) (src : Image) (chanel : Nat)
    (pos : Nat × Nat) (threshold : Nat) :
    writeBlock u src chanel pos 0 threshold = none := by
  have hnull : Block.copyFromImage u src chanel pos 0 = Ret.null :=
    (copyFromImage_null_iff u src chanel pos 0).mpr (Or.inl rfl)
  unfold writeBlock
  rw [hnull]

/-- C21. `write` hands the pointer returned by `Block::copyFromImage` to
`compress` unchecked. For an image of width 16842495 and height 1 written
with block length 65535 the `float` computation yields `n_blocks = 258`
where the quotient is exactly 257, so `b_last = 0`: the last request of the
row is at `x = 16842495 = width` with size 0, `copyFromImage` returns "no
block" for it, `compress` is given the null pointer, and `write` does not
complete. -/
theorem write_null_block (u : Fresh) (raw : List Nat) :
    nBlocks 16842495 65535 = some 258
      ∧ 16842495 = 257 * 65535
      ∧ bLast 16842495 258 65535 = 0
      ∧ (rowRequests 65535 258 (bLast 16842495 258 65535)).getLast? = some (16842495, 0)
      ∧ Block.copyFromImage u ⟨16842495, 1, raw⟩ 0 (16842495, 0) 0 = Ret.null
      ∧ (RLEImageWriter.create.setBlockDimension 65535).write u ⟨16842495, 1, raw⟩ = none := by
  have hn : nBlocks 16842495 65535 = some 258 := by decide
  have hb : bLast 16842495 258 65535 = 0 := by decide
  have hs : toSizeT 0 = 0 := by decide
  refine ⟨hn, by decide, hb, ?_,
    (copyFromImage_null_iff u ⟨16842495, 1, raw⟩ 0 (16842495, 0) 0).mpr (Or.inl rfl), ?_⟩
  · rw [rowRequests_eq, List.getLast?_append, hb, hs]
    rfl
  · have hw : RLEImageWriter.create.setBlockDimension 65535 = ⟨65535, 0⟩ := by decide
    rw [hw]
    apply write_none_of_row ⟨65535, 0⟩ u ⟨16842495, 1, raw⟩ 258 hn Nat.one_pos
    apply writeRow_none_of_last
    show writeBlock u ⟨16842495, 1, raw⟩ 0 ((258 - 1) * 65535, 0)
      (toSizeT (bLast 16842495 258 65535)) 0 = none
    rw [hb, hs]
    exact writeBlock_none_of_size_zero u _ 0 _ 0

/-- For a width below `2 ^ 24` every request of a row asks for at least one
sample and stays inside the row. -/
theorem requests_in_row (width block_length : Nat) (hw1 : 1 ≤ width) (hw : width < 2 ^ 24)
    (hb1 : 1 ≤ block_length) (hb : block_length < 2 ^ 16) :
    ∃ n, nBlocks width block_length = some n
      ∧ ∀ r ∈ rowRequests block_length n (bLast width n block_length),
          1 ≤ r.2 ∧ r.1 < width ∧ r.1 + r.2 ≤ width := by
  obtain ⟨n, hn, _, hn1, hreq, hlast1, _, _⟩ :=
    segmentation_exact width block_length hw1 hw hb1 hb
  refine ⟨n, hn, ?_⟩
  intro r hr
  rw [hreq] at hr
  rcases List.mem_append.mp hr with h | h
  · obtain ⟨k, hk, rfl⟩ := List.mem_map.mp h
    have hk1 : k < n - 1 := List.mem_range.mp hk
    have hmul : (k + 1) * block_length ≤ (n - 1) * block_length :=
      Nat.mul_le_mul_right _ hk1
    have hexp : (k + 1) * block_length = k * block_length + block_length := by ring
    simp only
    omega
  · rw [List.mem_singleton.mp h]
    simp only
    omega

theorem concatAll_some (xs : List (Option (List Nat)))
    (h : ∀ o ∈ xs, ∃ bytes, o = some bytes) : ∃ out, concatAll xs = some out := by
  induction xs with
  | nil => exact ⟨[], rfl⟩
  | cons o os ih =>
    obtain ⟨bytes, rfl⟩ := h o (List.mem_cons_self _ _)
    obtain ⟨rest, hrest⟩ := ih (fun o1 ho1 => h o1 (List.mem_cons_of_mem _ ho1))
    exact ⟨bytes ++ rest, by rw [concatAll, hrest]; rfl⟩

/-- An extraction request that stays inside its row, on an image whose
buffer holds the `3 * width * height` samples (fewer than `2 ^ 32`), yields a
block of exactly the requested size, holding the samples of the planar range
that starts at `channel * (width * height) + y * width + x`. -/
theorem copyFromImage_in_row (u : Fresh) (src : Image) (c y : Nat) (r : Nat × Nat)
    (hraw : src.raw.length = 3 * (src.width * src.height))
    (hfit : 3 * (src.width * src.height) < 2 ^ 32)
    (hc : c < 3) (hy : y < src.height) (hr1 : 1 ≤ r.2) (hrw : r.1 + r.2 ≤ src.width) :
    Block.copyFromImage u src c (r.1, y) r.2
        = Ret.val ⟨(src.raw.drop (c * (src.width * src.height) + (y * src.width + r.1))).take
            r.2, u.margin⟩
      ∧ ((src.raw.drop (c * (src.width * src.height) + (y * src.width + r.1))).take
            r.2).length = r.2 := by
  have hrow : (y + 1) * src.width ≤ src.height * src.width := Nat.mul_le_mul_right _ hy
  have hrow1 : (y + 1) * src.width = y * src.width + src.width := by ring
  have hcomm : src.height * src.width = src.width * src.height := Nat.mul_comm _ _
  have hchan : c * (src.width * src.height) ≤ 2 * (src.width * src.height) :=
    Nat.mul_le_mul_right _ (by omega)
  have hin : c * (src.width * src.height) + (y * src.width + r.1) + r.2 ≤ src.raw.length := by
    rw [hraw]
    omega
  constructor
  · apply copyFromImage_inside u src c (r.1, y) r.2 (by omega) hy (by simp only; omega)
      (c * (src.width * src.height) + (y * src.width + r.1)) _ hin
    simp only
    rw [Nat.mod_eq_of_lt (by omega : src.width * src.height < 2 ^ 32),
      Nat.mod_eq_of_lt (by omega : c * (src.width * src.height) < 2 ^ 32),
      Nat.mod_eq_of_lt (by omega : y * src.width + r.1 < 2 ^ 32)]
  · rw [List.length_take, List.length_drop]
    omega

theorem compress_some_of_nonempty (b : Block) (err : Nat) (h : 1 ≤ b.getSize) :
    ∃ out, compress b err = some out := by
  obtain ⟨data, m⟩ := b
  cases data with
  | nil => simp [Block.getSize] at h
  | cons x xs => exact ⟨compressLoop err (x :: xs) x 0 [], by simp [compress, Block.index]⟩

/-- On an image of width `1 ≤ width < 2 ^ 24` whose buffer holds its
`3 * width * height` samples (fewer than `2 ^ 32`), with a block length in
`1 .. 65535`: every request `write` issues is answered with a block of the
requested size `≥ 1`, and `write` completes. -/
theorem write_completes (wr : RLEImageWriter) (u : Fresh) (src : Image)
    (hw1 : 1 ≤ src.width) (hw : src.width < 2 ^ 24)
    (hb1 : 1 ≤ wr.block_length) (hb : wr.block_length < 2 ^ 16)
    (hraw : src.raw.length = 3 * (src.width * src.height))
    (hfit : 3 * (src.width * src.height) < 2 ^ 32) :
    ∃ n, nBlocks src.width wr.block_length = some n
      ∧ (∀ c y r, c < 3 → y < src.height →
          r ∈ rowRequests wr.block_length n (bLast src.width n wr.block_length) →
          1 ≤ r.2 ∧ r.1 < src.width
            ∧ ∃ b, Block.copyFromImage u src c (r.1, y) r.2 = Ret.val b ∧ b.getSize = r.2)
      ∧ ∃ bytes, wr.write u src = some bytes := by
  obtain ⟨n, hn, hreq⟩ := requests_in_row src.width wr.block_length hw1 hw hb1 hb
  have hblock : ∀ c y r, c < 3 → y < src.height →
      r ∈ rowRequests wr.block_length n (bLast src.width n wr.block_length) →
      1 ≤ r.2 ∧ r.1 < src.width
        ∧ ∃ b, Block.copyFromImage u src c (r.1, y) r.2 = Ret.val b ∧ b.getSize = r.2 := by
    intro c y r hc hy hr
    obtain ⟨h1, h2, h3⟩ := hreq r hr
    obtain ⟨hcopy, hlen⟩ := copyFromImage_in_row u src c y r hraw hfit hc hy h1 h3
    exact ⟨h1, h2, _, hcopy, hlen⟩
  refine ⟨n, hn, hblock, ?_⟩
  have hpay : ∃ out, payloadByBlocks u src wr.block_length wr.threshold n
      (bLast src.width n wr.block_length) = some out := by
    unfold payloadByBlocks
    apply concatAll_some
    intro o ho
    obtain ⟨c, hc, ho⟩ := List.mem_flatMap.mp ho
    obtain ⟨y, hy, ho⟩ := List.mem_flatMap.mp ho
    obtain ⟨r, hr, rfl⟩ := List.mem_map.mp ho
    rw [rowBlocks_eq_rowRequests] at hr
    obtain ⟨h1, _, b, hcopy, hsize⟩ :=
      hblock c y r (List.mem_range.mp hc) (List.mem_range.mp hy) hr
    obtain ⟨out, hout⟩ := compress_some_of_nonempty b wr.threshold (by omega)
    exact ⟨out, by unfold compressBlockAt; rw [hcopy]; exact hout⟩
  obtain ⟨out, hout⟩ := hpay
  refine ⟨writeHeader wr src ++ out, ?_⟩
  rw [write_eq_payloadByBlocks, hn]
  simp only [hout, Option.map_some']
